import Mathlib

/-!
# Histogram selectivity helpers (`rangetypes_helfuncs.c`)

A shallow embedding of `polyfit`, `function_poly`, `trapezoidal` and the three fraction
estimators of `src/backend/utils/adt/rangetypes_helfuncs.c`.

Modelling conventions
* The code is embedded twice.  In the first embedding a C `double` is a rational number:
  arithmetic is exact (no rounding, no overflow).  The only way exact arithmetic leaves the
  finite numbers is a division by zero, so a `double`-valued function that can divide by zero
  returns `Option ℚ`, where `none` stands for a non-finite result (an infinity or a NaN).  This
  embedding states what the algorithm computes when no rounding interferes.
* In the second embedding (namespace `Binary64`) a `double` is an IEEE 754 binary64 value:
  every operation rounds to nearest, ties to even, with subnormals, signed zeros, overflow to
  an infinity, and NaN.  It is used wherever rounding, overflow or a NaN decides the property:
  the test `x != 0` on a computed pivot, the product `0 * s` of a zero-width integral, the
  comparisons of `CLAMP_PROBABILITY`.
* A C array passed by pointer is a function `ℕ → ℚ` from index to cell content.  The flat
  work arrays `B`, `P` and `A` of `polyfit` are kept flat, with the source's index arithmetic.
* `unsigned int` arguments are natural numbers; `int order` of `function_poly` and
  `trapezoidal` is an integer.
* A `for` loop is `forUpTo` (its body run for `0, 1, …, n-1`), or `forUpToM` when the body
  can leave the function early.
* A local array that the C code leaves uninitialised (`coefficients_a`, `coefficients_b`) is
  an explicit argument holding the prior content of that stack memory.
* The `fprintf(stderr, …)` trace output is not modelled.
-/

namespace RangeHelFuncs

/-! ## Loops and memory -/

/-- The loop `for (i = 0; i < n; i++) s = body i s`, started in state `s`. -/
def forUpTo {σ : Type} : ℕ → (ℕ → σ → σ) → σ → σ
  | 0, _, s => s
  | k + 1, body, s => body k (forUpTo k body s)

/-- The loop `for (i = 0; i < n; i++)` whose body may leave the function (`none`). -/
def forUpToM {σ : Type} : ℕ → (ℕ → σ → Option σ) → σ → Option σ
  | 0, _, s => some s
  | k + 1, body, s => (forUpToM k body s).bind (body k)

/-- The array store `m[i] = v`. -/
def store (m : ℕ → ℚ) (i : ℕ) (v : ℚ) : ℕ → ℚ :=
  fun j => if j = i then v else m j

/-- Division of doubles: a zero divisor gives a non-finite result. -/
def fdiv (x y : ℚ) : Option ℚ :=
  if y = 0 then none else some (x / y)

/-! ## polyfit -/

/-- The constant `maxOrder` of `polyfit`. -/
def maxOrder : ℕ := 100

/-- Lines 52-64: the column vector `B[jj] += y * x^jj`, from the zero-initialised `B`. -/
def columnVector (dependentValues independentValues : ℕ → ℚ)
    (countOfElements order : ℕ) : ℕ → ℚ :=
  forUpTo countOfElements (fun ii B =>
    let x := dependentValues ii
    let y := independentValues ii
    (forUpTo (order + 1) (fun jj (st : (ℕ → ℚ) × ℚ) =>
      (store st.1 jj (st.1 jj + y * st.2), st.2 * x)) (B, 1)).1) (fun _ => 0)

/-- Lines 66-80: the power sums `P[0] = countOfElements`, `P[jj] += x^jj`
for `1 ≤ jj ≤ 2 * (order + 1)`, from the zero-initialised `P`. -/
def powerSums (dependentValues : ℕ → ℚ) (countOfElements order : ℕ) : ℕ → ℚ :=
  forUpTo countOfElements (fun ii P =>
    let x := dependentValues ii
    (forUpTo (2 * (order + 1)) (fun j (st : (ℕ → ℚ) × ℚ) =>
      (store st.1 (j + 1) (st.1 (j + 1) + st.2), st.2 * x)) (P, dependentValues ii)).1)
    (store (fun _ => 0) 0 (countOfElements : ℚ))

/-- Lines 82-92: the reduction matrix, the moments beside an identity block, written
into the zero-initialised flat array `A`. -/
def initMatrix (P : ℕ → ℚ) (order : ℕ) : ℕ → ℚ :=
  forUpTo (order + 1) (fun ii A =>
    let A := forUpTo (order + 1) (fun jj A =>
      store A ((ii * (2 * (order + 1))) + jj) (P (ii + jj))) A
    store A ((ii * (2 * (order + 1))) + (ii + (order + 1))) 1) (fun _ => 0)

/-- Lines 102-106: divide row `ii` by the pivot `x`. -/
def normalizeRow (order ii : ℕ) (x : ℚ) (A : ℕ → ℚ) : ℕ → ℚ :=
  forUpTo (2 * (order + 1)) (fun kk A =>
    store A ((ii * (2 * (order + 1))) + kk) (A ((ii * (2 * (order + 1))) + kk) / x)) A

/-- Lines 108-120: subtract from every other row `jj` its multiple of row `ii`. -/
def eliminateColumn (order ii : ℕ) (A : ℕ → ℚ) : ℕ → ℚ :=
  forUpTo (order + 1) (fun jj A =>
    if jj ≠ ii then
      let y := A ((jj * (2 * (order + 1))) + ii)
      forUpTo (2 * (order + 1)) (fun kk A =>
        store A ((jj * (2 * (order + 1))) + kk)
          (A ((jj * (2 * (order + 1))) + kk) - y * A ((ii * (2 * (order + 1))) + kk))) A
    else A) A

/-- Lines 99-126: one pass of the elimination loop body; `none` is the `return -1`
taken on a zero pivot. -/
def eliminationStep (order ii : ℕ) (A : ℕ → ℚ) : Option (ℕ → ℚ) :=
  let x := A ((ii * (2 * (order + 1))) + ii)
  if x ≠ 0 then some (eliminateColumn order ii (normalizeRow order ii x A))
  else none

/-- Lines 94-127: the elimination loop over the rows. -/
def invertLeft (order : ℕ) (A : ℕ → ℚ) : Option (ℕ → ℚ) :=
  forUpToM (order + 1) (eliminationStep order) A

/-- Lines 129-142: `coefficients[ii] = Σ_kk A[ii][kk + order + 1] * B[kk]`, with the
source's redundant middle loop over `jj`. -/
def writeCoefficients (order : ℕ) (A B coefficients : ℕ → ℚ) : ℕ → ℚ :=
  forUpTo (order + 1) (fun ii coefficients =>
    forUpTo (order + 1) (fun _jj coefficients =>
      let x := forUpTo (order + 1) (fun kk x =>
        x + (A ((ii * (2 * (order + 1))) + (kk + (order + 1))) * B kk)) 0
      store coefficients ii x) coefficients) coefficients

/-- The function `polyfit`: the returned status (`0` or `-1`) and the content of the
`coefficients` array after the call. -/
def polyfit (dependentValues independentValues : ℕ → ℚ) (countOfElements order : ℕ)
    (coefficients : ℕ → ℚ) : ℤ × (ℕ → ℚ) :=
  if countOfElements ≤ order then (-1, coefficients)
  else if order > maxOrder then (-1, coefficients)
  else
    let B := columnVector dependentValues independentValues countOfElements order
    let P := powerSums dependentValues countOfElements order
    let A := initMatrix P order
    match invertLeft order A with
    | some A => (0, writeCoefficients order A B coefficients)
    | none => (-1, coefficients)

/-! ## function_poly and trapezoidal -/

/-- The function `function_poly`: `Σ_{i ≤ order} x^i * coefficients[i]`. -/
def function_poly (coefficients : ℕ → ℚ) (x : ℚ) (order : ℤ) : ℚ :=
  forUpTo (order + 1).toNat (fun i s => s + (x ^ i * coefficients i)) 0

/-- The function `trapezoidal`.  The loop `for (int i = 1; i < n; i++)` with `n` a
double runs for `i = 1, …, ⌈n⌉ - 1`. -/
def trapezoidal (coefficients : ℕ → ℚ) (order : ℤ) (a b n : ℚ) : Option ℚ :=
  (fdiv (b - a) n).map fun h =>
    let s := function_poly coefficients a order + function_poly coefficients b order
    let s := forUpTo (⌈n⌉ - 1).toNat (fun k s =>
      s + 2 * function_poly coefficients (a + ((k + 1 : ℕ) : ℚ) * h) order) s
    (h / 2) * s

/-! ## The fraction estimators -/

/-- Modelled from the spec: the macro `Max` of PostgreSQL's `c.h`, a header that is not
among the embedded sources: the larger of its two arguments, `((x) > (y) ? (x) : (y))`. -/
def Max (x y : ℚ) : ℚ := if x > y then x else y

/-- Modelled from the spec: the macro `Min` of PostgreSQL's `c.h`, a header that is not
among the embedded sources: the smaller of its two arguments, `((x) < (y) ? (x) : (y))`. -/
def Min (x y : ℚ) : ℚ := if x < y then x else y

/-- The function `calculate_range_join_overlap_fraction`.  The last two arguments are the
prior contents of the uninitialised locals `coefficients_a` and `coefficients_b`. -/
def calculate_range_join_overlap_fraction (xa ya : ℕ → ℚ) (min_a max_a : ℚ)
    (xb yb : ℕ → ℚ) (min_b max_b : ℚ) (countOfElements : ℕ)
    (coefficients_a coefficients_b : ℕ → ℚ) : Option ℚ :=
  let order : ℕ := 5
  let integ_squares : ℚ := 100
  let coefficients_a := (polyfit xa ya countOfElements order coefficients_a).2
  let coefficients_b := (polyfit xb yb countOfElements order coefficients_b).2
  (trapezoidal coefficients_a order min_a max_a integ_squares).bind fun integ_a =>
  (trapezoidal coefficients_b order min_b max_b integ_squares).bind fun integ_b =>
  let start := Max min_b min_a
  let «end» := Min max_b max_a
  if start < «end» then
    (trapezoidal coefficients_a order start «end» integ_squares).bind fun intersect_a =>
    (trapezoidal coefficients_b order start «end» integ_squares).bind fun intersect_b =>
    (fdiv intersect_a integ_a).bind fun ratio_a =>
    (fdiv intersect_b integ_b).bind fun ratio_b =>
    some (ratio_a * ratio_b)
  else
    some 0

/-- The function `calculate_range_left_of_fraction`.  The last argument is the prior
content of the uninitialised local `coefficients_a`. -/
def calculate_range_left_of_fraction (xa ya : ℕ → ℚ) (min_a max_a : ℚ)
    (countOfElements : ℕ) (const_lower : ℚ) (coefficients_a : ℕ → ℚ) : Option ℚ :=
  let order : ℕ := 5
  let integ_squares : ℚ := 100
  if const_lower < min_a then some 0
  else if const_lower > max_a then some 1
  else
    let coefficients_a := (polyfit xa ya countOfElements order coefficients_a).2
    (trapezoidal coefficients_a order min_a max_a integ_squares).bind fun integ_a =>
    (trapezoidal coefficients_a order min_a const_lower integ_squares).bind fun intersect_a =>
    fdiv intersect_a integ_a

/-- The function `calculate_range_overlap_fraction`.  The last argument is the prior
content of the uninitialised local `coefficients_a`. -/
def calculate_range_overlap_fraction (xa ya : ℕ → ℚ) (min_a max_a : ℚ)
    (countOfElements : ℕ) (const_lower const_upper : ℚ) (coefficients_a : ℕ → ℚ) :
    Option ℚ :=
  let order : ℕ := 5
  let integ_squares : ℚ := 100
  if const_upper < min_a then some 0
  else if const_lower > max_a then some 0
  else if const_lower < min_a ∧ const_upper > max_a then some 1
  else
    let lower := Max min_a const_lower
    let upper := Min max_a const_upper
    let coefficients_a := (polyfit xa ya countOfElements order coefficients_a).2
    (trapezoidal coefficients_a order min_a max_a integ_squares).bind fun integ_a =>
    (trapezoidal coefficients_a order lower upper integ_squares).bind fun intersect =>
    fdiv intersect integ_a

/-! ## Notions used to state the properties -/

/-- Row `r`, column `c` of the flat reduction matrix `A` of `polyfit`. -/
def cell (order : ℕ) (A : ℕ → ℚ) (r c : ℕ) : ℚ := A (r * (2 * (order + 1)) + c)

/-- The power sum `Σ_s x_s ^ t` over the first `n` samples. -/
def moment (xs : ℕ → ℚ) (n t : ℕ) : ℚ := ∑ s in Finset.range n, xs s ^ t

/-- The value of the 100-panel trapezoidal rule for a function `f`, as a closed sum. -/
def trapezoid100 (f : ℚ → ℚ) (a b : ℚ) : ℚ :=
  (b - a) / 200 * (f a + f b
    + ∑ k in Finset.range 99, 2 * f (a + ((k + 1 : ℕ) : ℚ) * ((b - a) / 100)))

/-- The invariant of the elimination loop after `k` passes: the left block is the right
block times the moment matrix, the first `k` columns of the left block and the columns from
`k` on of the right block are unit vectors. -/
structure ElimInv (xs : ℕ → ℚ) (n order k : ℕ) (A : ℕ → ℚ) : Prop where
  left_eq : ∀ r c, r < order + 1 → c < order + 1 →
    cell order A r c
      = ∑ j in Finset.range (order + 1), cell order A r (j + (order + 1)) * moment xs n (j + c)
  left_unit : ∀ r c, r < order + 1 → c < k →
    cell order A r c = if r = c then 1 else 0
  right_unit : ∀ r c, r < order + 1 → c < order + 1 → k ≤ c →
    cell order A r (c + (order + 1)) = if r = c then 1 else 0


/-! ## The same functions in IEEE 754 binary64 arithmetic -/

namespace Binary64

/-- A `double`: a NaN, an infinity, a signed zero, or the non-zero finite value
`± m * 2 ^ e`, kept with `2 ^ 52 ≤ m < 2 ^ 53` (normal) or `e = -1074` (subnormal). -/
inductive F64 where
  | nan : F64
  | inf (neg : Bool) : F64
  | zero (neg : Bool) : F64
  | fin (neg : Bool) (m : ℕ) (e : ℤ) : F64
  deriving DecidableEq

/-- The number of binary digits of `n`, by halving at most `fuel` times. -/
def bitsAux : ℕ → ℕ → ℕ
  | 0, _ => 0
  | fuel + 1, n => if n = 0 then 0 else bitsAux fuel (n / 2) + 1

/-- The number of binary digits of `n`. -/
def bits (n : ℕ) : ℕ := bitsAux n n

/-- A finite result with mantissa `m` and exponent `e` already rounded: zero when the
mantissa is zero, an infinity when the value is `2 ^ 1024` or more. -/
def pack (s : Bool) (m : ℕ) (e : ℤ) : F64 :=
  if m = 0 then F64.zero s
  else if m = 2 ^ 53 then (if 971 ≤ e then F64.inf s else F64.fin s (2 ^ 52) (e + 1))
  else if 972 ≤ e then F64.inf s
  else F64.fin s m e

/-- Rounding of the exact non-zero value `± N * 2 ^ E` to binary64, round-to-nearest, ties
to even: 53 significant bits, least exponent `-1074`, overflow to an infinity. -/
def roundTo (s : Bool) (N : ℕ) (E : ℤ) : F64 :=
  let et : ℤ := max (E + (bits N : ℤ) - 53) (-1074)
  if et ≤ E then pack s (N * 2 ^ (E - et).toNat) et
  else
    let sh : ℕ := (et - E).toNat
    let q : ℕ := N / 2 ^ sh
    let r : ℕ := N % 2 ^ sh
    let half : ℕ := 2 ^ (sh - 1)
    pack s (if r < half then q else if half < r then q + 1
      else if q % 2 = 0 then q else q + 1) et

/-- Rounding of the exact non-zero quotient `± (N₁ / N₂) * 2 ^ E`: the quotient is taken
to at least 55 bits with a sticky bit for the remainder, then rounded. -/
def roundDiv (s : Bool) (N₁ N₂ : ℕ) (E : ℤ) : F64 :=
  let k : ℕ := bits N₂ + 55 - bits N₁
  let Q : ℕ := (N₁ * 2 ^ k) / N₂
  let sticky : ℕ := if (N₁ * 2 ^ k) % N₂ = 0 then 0 else 1
  roundTo s (2 * Q + sticky) (E - (k : ℤ) - 1)

/-- The `double` nearest to a rational (a decimal literal or an exactly given input). -/
def ofRat (q : ℚ) : F64 :=
  if q = 0 then F64.zero false
  else roundDiv (decide (q < 0)) q.num.natAbs q.den 0

/-- The conversion of an integer to `double`. -/
def ofInt (i : ℤ) : F64 :=
  if i = 0 then F64.zero false else roundTo (decide (i < 0)) i.natAbs 0

/-- The value of a finite `double`. -/
def toRat : F64 → Option ℚ
  | F64.zero _ => some 0
  | F64.fin s m e =>
    some ((if s then -1 else 1) * (m : ℚ)
      * (if 0 ≤ e then ((2 ^ e.toNat : ℕ) : ℚ) else 1 / ((2 ^ (-e).toNat : ℕ) : ℚ)))
  | _ => none

/-- Negation. -/
def neg : F64 → F64
  | F64.nan => F64.nan
  | F64.inf s => F64.inf (!s)
  | F64.zero s => F64.zero (!s)
  | F64.fin s m e => F64.fin (!s) m e

/-- The signed integer `± m * 2 ^ (e - e₀)` of a finite value, for `e₀ ≤ e`. -/
def scaled (s : Bool) (m : ℕ) (e e₀ : ℤ) : ℤ :=
  if s then -((m * 2 ^ (e - e₀).toNat : ℕ) : ℤ) else ((m * 2 ^ (e - e₀).toNat : ℕ) : ℤ)

/-- Addition `x + y`. -/
def add : F64 → F64 → F64
  | F64.nan, _ => F64.nan
  | _, F64.nan => F64.nan
  | F64.inf s, F64.inf t => if s = t then F64.inf s else F64.nan
  | F64.inf s, _ => F64.inf s
  | _, F64.inf t => F64.inf t
  | F64.zero s, F64.zero t => F64.zero (s && t)
  | F64.zero _, F64.fin t m e => F64.fin t m e
  | F64.fin s m e, F64.zero _ => F64.fin s m e
  | F64.fin s m e, F64.fin t n f =>
    let e₀ : ℤ := min e f
    let z : ℤ := scaled s m e e₀ + scaled t n f e₀
    if z = 0 then F64.zero false else roundTo (decide (z < 0)) z.natAbs e₀

/-- Subtraction `x - y`. -/
def sub (x y : F64) : F64 := add x (neg y)

/-- Multiplication `x * y`. -/
def mul : F64 → F64 → F64
  | F64.nan, _ => F64.nan
  | _, F64.nan => F64.nan
  | F64.inf _, F64.zero _ => F64.nan
  | F64.zero _, F64.inf _ => F64.nan
  | F64.inf s, F64.inf t => F64.inf (xor s t)
  | F64.inf s, F64.fin t _ _ => F64.inf (xor s t)
  | F64.fin s _ _, F64.inf t => F64.inf (xor s t)
  | F64.zero s, F64.zero t => F64.zero (xor s t)
  | F64.zero s, F64.fin t _ _ => F64.zero (xor s t)
  | F64.fin s _ _, F64.zero t => F64.zero (xor s t)
  | F64.fin s m e, F64.fin t n f => roundTo (xor s t) (m * n) (e + f)

/-- Division `x / y`. -/
def div : F64 → F64 → F64
  | F64.nan, _ => F64.nan
  | _, F64.nan => F64.nan
  | F64.inf _, F64.inf _ => F64.nan
  | F64.zero _, F64.zero _ => F64.nan
  | F64.inf s, F64.zero t => F64.inf (xor s t)
  | F64.inf s, F64.fin t _ _ => F64.inf (xor s t)
  | F64.zero s, F64.inf t => F64.zero (xor s t)
  | F64.fin s _ _, F64.inf t => F64.zero (xor s t)
  | F64.zero s, F64.fin t _ _ => F64.zero (xor s t)
  | F64.fin s _ _, F64.zero t => F64.inf (xor s t)
  | F64.fin s m e, F64.fin t n f => roundDiv (xor s t) m n (e - f)

/-- The comparison `x < y`; false as soon as one side is a NaN. -/
def lt : F64 → F64 → Bool
  | F64.nan, _ => false
  | _, F64.nan => false
  | F64.inf s, F64.inf t => s && !t
  | F64.inf s, _ => s
  | _, F64.inf t => !t
  | F64.zero _, F64.zero _ => false
  | F64.zero _, F64.fin t _ _ => !t
  | F64.fin s _ _, F64.zero _ => s
  | F64.fin s m e, F64.fin t n f =>
    decide (scaled s m e (min e f) < scaled t n f (min e f))

/-- The test `x != 0`; true of a NaN. -/
def neZero : F64 → Bool
  | F64.zero _ => false
  | _ => true

/-- The C library `pow(x, i)` for an integer exponent `i ≥ 0`, taken as correctly rounded. -/
def pow : F64 → ℕ → F64
  | _, 0 => F64.fin false (2 ^ 52) (-52)
  | F64.nan, _ => F64.nan
  | F64.inf s, i => F64.inf (s && decide (i % 2 = 1))
  | F64.zero s, i => F64.zero (s && decide (i % 2 = 1))
  | F64.fin s m e, i => roundTo (s && decide (i % 2 = 1)) (m ^ i) (e * (i : ℤ))

/-- The constant `1.0`. -/
def one : F64 := F64.fin false (2 ^ 52) (-52)

/-- The array store `m[i] = v`. -/
def store (m : ℕ → F64) (i : ℕ) (v : F64) : ℕ → F64 :=
  fun j => if j = i then v else m j

/-- Lines 52-64 in binary64. -/
def columnVector (dependentValues independentValues : ℕ → F64)
    (countOfElements order : ℕ) : ℕ → F64 :=
  forUpTo countOfElements (fun ii B =>
    let x := dependentValues ii
    let y := independentValues ii
    (forUpTo (order + 1) (fun jj (st : (ℕ → F64) × F64) =>
      (store st.1 jj (add (st.1 jj) (mul y st.2)), mul st.2 x)) (B, one)).1)
    (fun _ => F64.zero false)

/-- Lines 66-80 in binary64. -/
def powerSums (dependentValues : ℕ → F64) (countOfElements order : ℕ) : ℕ → F64 :=
  forUpTo countOfElements (fun ii P =>
    let x := dependentValues ii
    (forUpTo (2 * (order + 1)) (fun j (st : (ℕ → F64) × F64) =>
      (store st.1 (j + 1) (add (st.1 (j + 1)) st.2), mul st.2 x)) (P, dependentValues ii)).1)
    (store (fun _ => F64.zero false) 0 (ofInt (countOfElements : ℤ)))

/-- Lines 82-92 in binary64. -/
def initMatrix (P : ℕ → F64) (order : ℕ) : ℕ → F64 :=
  forUpTo (order + 1) (fun ii A =>
    let A := forUpTo (order + 1) (fun jj A =>
      store A ((ii * (2 * (order + 1))) + jj) (P (ii + jj))) A
    store A ((ii * (2 * (order + 1))) + (ii + (order + 1))) one)
    (fun _ => F64.zero false)

/-- Lines 102-106 in binary64. -/
def normalizeRow (order ii : ℕ) (x : F64) (A : ℕ → F64) : ℕ → F64 :=
  forUpTo (2 * (order + 1)) (fun kk A =>
    store A ((ii * (2 * (order + 1))) + kk) (div (A ((ii * (2 * (order + 1))) + kk)) x)) A

/-- Lines 108-120 in binary64. -/
def eliminateColumn (order ii : ℕ) (A : ℕ → F64) : ℕ → F64 :=
  forUpTo (order + 1) (fun jj A =>
    if jj ≠ ii then
      let y := A ((jj * (2 * (order + 1))) + ii)
      forUpTo (2 * (order + 1)) (fun kk A =>
        store A ((jj * (2 * (order + 1))) + kk)
          (sub (A ((jj * (2 * (order + 1))) + kk))
            (mul y (A ((ii * (2 * (order + 1))) + kk))))) A
    else A) A

/-- Lines 99-126 in binary64: the pivot tested is the rounded value held in `A`. -/
def eliminationStep (order ii : ℕ) (A : ℕ → F64) : Option (ℕ → F64) :=
  let x := A ((ii * (2 * (order + 1))) + ii)
  if neZero x = true then some (eliminateColumn order ii (normalizeRow order ii x A))
  else none

/-- Lines 94-127 in binary64. -/
def invertLeft (order : ℕ) (A : ℕ → F64) : Option (ℕ → F64) :=
  forUpToM (order + 1) (eliminationStep order) A

/-- Lines 129-142 in binary64. -/
def writeCoefficients (order : ℕ) (A B coefficients : ℕ → F64) : ℕ → F64 :=
  forUpTo (order + 1) (fun ii coefficients =>
    forUpTo (order + 1) (fun _jj coefficients =>
      let x := forUpTo (order + 1) (fun kk x =>
        add x (mul (A ((ii * (2 * (order + 1))) + (kk + (order + 1)))) (B kk)))
        (F64.zero false)
      store coefficients ii x) coefficients) coefficients

/-- The function `polyfit` in binary64: status and content of `coefficients` afterwards. -/
def polyfit (dependentValues independentValues : ℕ → F64) (countOfElements order : ℕ)
    (coefficients : ℕ → F64) : ℤ × (ℕ → F64) :=
  if countOfElements ≤ order then (-1, coefficients)
  else if order > maxOrder then (-1, coefficients)
  else
    let B := columnVector dependentValues independentValues countOfElements order
    let P := powerSums dependentValues countOfElements order
    let A := initMatrix P order
    match invertLeft order A with
    | some A => (0, writeCoefficients order A B coefficients)
    | none => (-1, coefficients)

/-- Whether a `double` is finite: a zero or a non-zero finite value. -/
def isFinite : F64 → Bool
  | F64.zero _ => true
  | F64.fin _ _ _ => true
  | _ => false

/-- The function `function_poly` in binary64. -/
def function_poly (coefficients : ℕ → F64) (x : F64) (order : ℤ) : F64 :=
  forUpTo (order + 1).toNat (fun i s => add s (mul (pow x i) (coefficients i)))
    (F64.zero false)

/-- The number of passes of `for (int i = 1; i < n; i++)` for a `double` bound `n`; `none`
when the bound is above `INT_MAX`, where the counter would overflow. -/
def loopCount : F64 → Option ℕ
  | F64.nan => some 0
  | F64.inf s => if s then some 0 else none
  | F64.zero _ => some 0
  | F64.fin s m e =>
    if s then some 0
    else
      let c : ℕ := if 0 ≤ e then m * 2 ^ e.toNat
        else (m + 2 ^ (-e).toNat - 1) / 2 ^ (-e).toNat
      if 2147483647 < c then none else some (c - 1)

/-- Lines 166-170 in binary64: the sum `s` of the end values and twice the middle values. -/
def trapezoidalSum (coefficients : ℕ → F64) (order : ℤ) (a b h : F64) (count : ℕ) : F64 :=
  forUpTo count (fun k s =>
    add s (mul (ofInt 2)
      (function_poly coefficients (add a (mul (ofInt ((k + 1 : ℕ) : ℤ)) h)) order)))
    (add (function_poly coefficients a order) (function_poly coefficients b order))

/-- The function `trapezoidal` in binary64. -/
def trapezoidal (coefficients : ℕ → F64) (order : ℤ) (a b n : F64) : Option F64 :=
  (loopCount n).map fun count =>
    let h := div (sub b a) n
    mul (div h (ofInt 2)) (trapezoidalSum coefficients order a b h count)

/-- Modelled from the spec: the macro `Max` of PostgreSQL's `c.h` on doubles,
`((x) > (y) ? (x) : (y))`. -/
def Max (x y : F64) : F64 := if lt y x = true then x else y

/-- Modelled from the spec: the macro `Min` of PostgreSQL's `c.h` on doubles,
`((x) < (y) ? (x) : (y))`. -/
def Min (x y : F64) : F64 := if lt x y = true then x else y

/-- The function `calculate_range_join_overlap_fraction` in binary64. -/
def calculate_range_join_overlap_fraction (xa ya : ℕ → F64) (min_a max_a : F64)
    (xb yb : ℕ → F64) (min_b max_b : F64) (countOfElements : ℕ)
    (coefficients_a coefficients_b : ℕ → F64) : Option F64 :=
  let order : ℕ := 5
  let integ_squares : F64 := ofInt 100
  let coefficients_a := (polyfit xa ya countOfElements order coefficients_a).2
  let coefficients_b := (polyfit xb yb countOfElements order coefficients_b).2
  (trapezoidal coefficients_a order min_a max_a integ_squares).bind fun integ_a =>
  (trapezoidal coefficients_b order min_b max_b integ_squares).bind fun integ_b =>
  let start := Max min_b min_a
  let «end» := Min max_b max_a
  if lt start «end» = true then
    (trapezoidal coefficients_a order start «end» integ_squares).bind fun intersect_a =>
    (trapezoidal coefficients_b order start «end» integ_squares).bind fun intersect_b =>
    some (mul (div intersect_a integ_a) (div intersect_b integ_b))
  else
    some (F64.zero false)

/-- Modelled from the spec: the macro `CLAMP_PROBABILITY` of PostgreSQL's `selfuncs.h` on
doubles, `if (p < 0.0) p = 0.0; else if (p > 1.0) p = 1.0;`: a NaN fails both tests. -/
def CLAMP_PROBABILITY (p : F64) : F64 :=
  if lt p (F64.zero false) = true then F64.zero false
  else if lt one p = true then one
  else p

/-- Lines 301-331 of `rangeoverlapsjoinsel` in binary64: the call of the join estimator and
the clamping of its result. -/
def rangeoverlapsjoinsel (histogram1x histogram1y : ℕ → F64) (lowerDiff1 histogramWidth1 : F64)
    (histogram2x histogram2y : ℕ → F64) (lowerDiff2 histogramWidth2 : F64) (numberOfBins1 : ℕ)
    (coefficients_a coefficients_b : ℕ → F64) : Option F64 :=
  (calculate_range_join_overlap_fraction
    histogram1x histogram1y lowerDiff1 (add lowerDiff1 histogramWidth1)
    histogram2x histogram2y lowerDiff2 (add lowerDiff2 histogramWidth2)
    numberOfBins1 coefficients_a coefficients_b).map CLAMP_PROBABILITY

end Binary64

/-! ## Loop and memory lemmas -/

theorem forUpTo_succ {σ : Type} (k : ℕ) (body : ℕ → σ → σ) (s : σ) :
    forUpTo (k + 1) body s = body k (forUpTo k body s) := rfl

theorem forUpToM_succ {σ : Type} (k : ℕ) (body : ℕ → σ → Option σ) (s : σ) :
    forUpToM (k + 1) body s = (forUpToM k body s).bind (body k) := rfl

theorem store_same (m : ℕ → ℚ) (i : ℕ) (v : ℚ) : store m i v i = v := by
  simp [store]

theorem store_ne (m : ℕ → ℚ) (i : ℕ) (v : ℚ) (j : ℕ) (h : j ≠ i) : store m i v j = m j := by
  simp [store, h]

/-- An accumulating loop computes a finite sum. -/
theorem forUpTo_sum (n : ℕ) (f : ℕ → ℚ) (s : ℚ) :
    forUpTo n (fun k x => x + f k) s = s + ∑ k in Finset.range n, f k := by
  induction n with
  | zero => simp [forUpTo]
  | succ n ih => rw [forUpTo_succ, ih, Finset.sum_range_succ]; ring

/-- A loop that stores the same value at the same cell on every pass. -/
theorem forUpTo_store_const (n : ℕ) (c : ℕ → ℚ) (i : ℕ) (v : ℚ) :
    forUpTo (n + 1) (fun _ c => store c i v) c = store c i v := by
  induction n with
  | zero => rfl
  | succ n ih =>
    rw [forUpTo_succ, ih]
    funext j
    by_cases h : j = i <;> simp [store, h]

/-- Row-major addressing is injective on in-range columns. -/
theorem idx_inj {W i j k l : ℕ} (hk : k < W) (hl : l < W) :
    i * W + k = j * W + l ↔ i = j ∧ k = l := by
  constructor
  · intro h
    have h1 : (i * W + k) / W = i := by
      rw [Nat.add_comm, Nat.add_mul_div_right _ _ (by omega), Nat.div_eq_of_lt hk, Nat.zero_add]
    have h2 : (j * W + l) / W = j := by
      rw [Nat.add_comm, Nat.add_mul_div_right _ _ (by omega), Nat.div_eq_of_lt hl, Nat.zero_add]
    have hij : i = j := by rw [← h1, ← h2, h]
    subst hij
    exact ⟨rfl, by omega⟩
  · rintro ⟨rfl, rfl⟩; rfl

/-! ## The column vector and the power sums -/

theorem columnVector_inner (x y : ℚ) (B : ℕ → ℚ) (m : ℕ) :
    forUpTo m (fun jj (st : (ℕ → ℚ) × ℚ) =>
      (store st.1 jj (st.1 jj + y * st.2), st.2 * x)) (B, 1)
    = (fun j => if j < m then B j + y * x ^ j else B j, x ^ m) := by
  induction m with
  | zero => simp [forUpTo]
  | succ m ih =>
    rw [forUpTo_succ, ih]
    refine Prod.ext ?_ ?_
    · funext j
      rcases Nat.lt_trichotomy j m with h | h | h
      · have h1 : j ≠ m := by omega
        have h2 : j < m + 1 := by omega
        simp [store, h, h1, h2]
      · subst h; simp [store]
      · have h1 : j ≠ m := by omega
        have h2 : ¬ j < m + 1 := by omega
        have h3 : ¬ j < m := by omega
        simp [store, h1, h2, h3]
    · simp [pow_succ]

theorem columnVector_spec (xs ys : ℕ → ℚ) (n order : ℕ) :
    columnVector xs ys n order
    = fun j => if j < order + 1 then ∑ s in Finset.range n, ys s * xs s ^ j else 0 := by
  unfold columnVector
  induction n with
  | zero => funext j; simp [forUpTo]
  | succ n ih =>
    rw [forUpTo_succ, ih]
    simp only [columnVector_inner]
    funext j
    by_cases h : j < order + 1
    · simp [h, Finset.sum_range_succ]
    · simp [h]

theorem powerSums_inner (x : ℚ) (P : ℕ → ℚ) (m : ℕ) :
    forUpTo m (fun j (st : (ℕ → ℚ) × ℚ) =>
      (store st.1 (j + 1) (st.1 (j + 1) + st.2), st.2 * x)) (P, x)
    = (fun j => if 1 ≤ j ∧ j ≤ m then P j + x ^ j else P j, x ^ (m + 1)) := by
  induction m with
  | zero =>
    refine Prod.ext ?_ ?_
    · funext j
      have : ¬ (1 ≤ j ∧ j ≤ 0) := by omega
      simp only [forUpTo, if_neg this]
    · simp [forUpTo]
  | succ m ih =>
    rw [forUpTo_succ, ih]
    refine Prod.ext ?_ ?_
    · funext j
      rcases Nat.lt_trichotomy j (m + 1) with h | h | h
      · have h1 : j ≠ m + 1 := by omega
        by_cases h0 : 1 ≤ j
        · have h2 : 1 ≤ j ∧ j ≤ m := ⟨h0, by omega⟩
          have h3 : 1 ≤ j ∧ j ≤ m + 1 := ⟨h0, by omega⟩
          simp [store, h1, h2, h3]
        · have h2 : ¬ (1 ≤ j ∧ j ≤ m) := by omega
          have h3 : ¬ (1 ≤ j ∧ j ≤ m + 1) := by omega
          simp [store, h1, h2, h3]
      · subst h
        have h2 : ¬ (1 ≤ m + 1 ∧ m + 1 ≤ m) := by omega
        simp [store, h2]
      · have h1 : j ≠ m + 1 := by omega
        have h2 : ¬ (1 ≤ j ∧ j ≤ m) := by omega
        have h3 : ¬ (1 ≤ j ∧ j ≤ m + 1) := by omega
        simp [store, h1, h2, h3]
    · simp [pow_succ]

theorem powerSums_spec (xs : ℕ → ℚ) (n order : ℕ) :
    powerSums xs n order
    = fun j => if j ≤ 2 * (order + 1) then ∑ s in Finset.range n, xs s ^ j
        else 0 := by
  have key : ∀ (c : ℚ) (k : ℕ),
      forUpTo k (fun ii P =>
        (forUpTo (2 * (order + 1)) (fun j (st : (ℕ → ℚ) × ℚ) =>
          (store st.1 (j + 1) (st.1 (j + 1) + st.2), st.2 * xs ii)) (P, xs ii)).1)
        (store (fun _ => 0) 0 c)
      = fun j => if j = 0 then c else if j ≤ 2 * (order + 1) then
          ∑ s in Finset.range k, xs s ^ j else 0 := by
    intro c k
    induction k with
    | zero => funext j; by_cases h : j = 0 <;> simp [forUpTo, store, h]
    | succ k ih =>
      rw [forUpTo_succ, ih]
      simp only [powerSums_inner]
      funext j
      by_cases h0 : j = 0
      · subst h0; simp
      · have h1 : 1 ≤ j := by omega
        by_cases h2 : j ≤ 2 * (order + 1)
        · simp [h0, h1, h2, Finset.sum_range_succ]
        · simp [h0, h1, h2]
  unfold powerSums
  rw [key]
  funext j
  by_cases h0 : j = 0
  · subst h0; simp
  · simp [h0]


/-! ## The reduction matrix -/

theorem store_cell {W : ℕ} (A : ℕ → ℚ) (i k r c : ℕ) (v : ℚ) (hk : k < W) (hc : c < W) :
    store A (i * W + k) v (r * W + c) = if r = i ∧ c = k then v else A (r * W + c) := by
  simp only [store, idx_inj hc hk]

/-- A loop writing the first `t` cells of row `i`, each from the old content. -/
theorem forUpTo_row {W : ℕ} (i : ℕ) (g : ℕ → (ℕ → ℚ) → ℚ) (A : ℕ → ℚ)
    (hg : ∀ k A', k < W → (∀ r c, c < W → (r ≠ i ∨ k ≤ c) → A' (r * W + c) = A (r * W + c)) →
      g k A' = g k A)
    (t : ℕ) (ht : t ≤ W) (r c : ℕ) (hc : c < W) :
    forUpTo t (fun kk A => store A (i * W + kk) (g kk A)) A (r * W + c)
    = if r = i ∧ c < t then g c A else A (r * W + c) := by
  induction t generalizing r c with
  | zero => simp [forUpTo]
  | succ t ih =>
    have ht' : t ≤ W := by omega
    have htW : t < W := by omega
    rw [forUpTo_succ, store_cell _ _ _ _ _ _ htW hc]
    have hgt : g t (forUpTo t (fun kk A => store A (i * W + kk) (g kk A)) A) = g t A := by
      apply hg t _ htW
      intro r' c' hc' hrc
      rw [ih ht' r' c' hc']
      have : ¬ (r' = i ∧ c' < t) := by omega
      rw [if_neg this]
    rw [hgt, ih ht' r c hc]
    by_cases h1 : r = i
    · rcases Nat.lt_trichotomy c t with h | h | h
      · have h2 : c ≠ t := by omega
        have h3 : c < t + 1 := by omega
        simp [h1, h, h2, h3]
      · subst h; simp [h1]
      · have h2 : c ≠ t := by omega
        have h3 : ¬ c < t + 1 := by omega
        have h4 : ¬ c < t := by omega
        simp [h1, h2, h3, h4]
    · simp [h1]

theorem initMatrix_spec (P : ℕ → ℚ) (order r c : ℕ) (hc : c < 2 * (order + 1)) :
    cell order (initMatrix P order) r c
    = if r < order + 1 then
        (if c < order + 1 then P (r + c) else if c = r + (order + 1) then 1 else 0)
      else 0 := by
  unfold cell initMatrix
  have key : ∀ k, k ≤ order + 1 → ∀ r c, c < 2 * (order + 1) →
      forUpTo k (fun ii A =>
        let A := forUpTo (order + 1) (fun jj A =>
          store A ((ii * (2 * (order + 1))) + jj) (P (ii + jj))) A
        store A ((ii * (2 * (order + 1))) + (ii + (order + 1))) 1) (fun _ => 0)
        (r * (2 * (order + 1)) + c)
      = if r < k then
          (if c < order + 1 then P (r + c) else if c = r + (order + 1) then 1 else 0)
        else 0 := by
    intro k
    induction k with
    | zero => intro _ r c _; simp [forUpTo]
    | succ k ih =>
      intro hk r c hc
      rw [forUpTo_succ]
      simp only []
      rw [store_cell _ _ _ _ _ _ (by omega) hc,
        forUpTo_row k (fun jj _ => P (k + jj)) _ (fun _ _ _ _ => rfl) (order + 1) (by omega)
          r c hc,
        ih (by omega) r c hc]
      rcases Nat.lt_trichotomy r k with h | h | h
      · have h1 : r ≠ k := by omega
        have h2 : r < k + 1 := by omega
        simp [h, h1, h2]
      · subst h
        by_cases h3 : c < order + 1
        · have h4 : c ≠ r + (order + 1) := by omega
          simp [h3, h4]
        · by_cases h4 : c = r + (order + 1) <;> simp [h3, h4]
      · have h1 : r ≠ k := by omega
        have h2 : ¬ r < k + 1 := by omega
        have h3 : ¬ r < k := by omega
        simp [h1, h2, h3]
  exact key (order + 1) le_rfl r c hc

theorem normalizeRow_spec (order ii : ℕ) (x : ℚ) (A : ℕ → ℚ) (r c : ℕ)
    (hc : c < 2 * (order + 1)) :
    cell order (normalizeRow order ii x A) r c
    = if r = ii then cell order A ii c / x else cell order A r c := by
  unfold cell normalizeRow
  rw [forUpTo_row ii (fun kk A => A (ii * (2 * (order + 1)) + kk) / x) A ?_ _ le_rfl r c hc]
  · by_cases h : r = ii <;> simp [h, hc]
  · intro k A' hk h
    simp only []
    rw [h ii k hk (Or.inr le_rfl)]

theorem eliminateColumn_spec (order ii : ℕ) (hii : ii < order + 1) (A : ℕ → ℚ) (r c : ℕ)
    (hc : c < 2 * (order + 1)) :
    cell order (eliminateColumn order ii A) r c
    = if r < order + 1 ∧ r ≠ ii then
        cell order A r c - cell order A r ii * cell order A ii c
      else cell order A r c := by
  unfold cell eliminateColumn
  have key : ∀ t, ∀ r c, c < 2 * (order + 1) →
      forUpTo t (fun jj A =>
        if jj ≠ ii then
          let y := A ((jj * (2 * (order + 1))) + ii)
          forUpTo (2 * (order + 1)) (fun kk A =>
            store A ((jj * (2 * (order + 1))) + kk)
              (A ((jj * (2 * (order + 1))) + kk) - y * A ((ii * (2 * (order + 1))) + kk))) A
        else A) A (r * (2 * (order + 1)) + c)
      = if r < t ∧ r ≠ ii then
          A (r * (2 * (order + 1)) + c)
            - A (r * (2 * (order + 1)) + ii) * A (ii * (2 * (order + 1)) + c)
        else A (r * (2 * (order + 1)) + c) := by
    intro t
    induction t with
    | zero => intro r c _; simp [forUpTo]
    | succ t ih =>
      intro r c hc
      rw [forUpTo_succ]
      by_cases hti : t = ii
      · subst hti
        simp only [ne_eq, not_true_eq_false, if_false]
        rw [ih r c hc]
        by_cases h : r = t
        · simp [h]
        · have : r < t + 1 ↔ r < t := by omega
          simp [h, this]
      · rw [if_pos hti]
        simp only []
        rw [forUpTo_row t (fun kk A' =>
            A' (t * (2 * (order + 1)) + kk)
              - forUpTo t _ A (t * (2 * (order + 1)) + ii) * A' (ii * (2 * (order + 1)) + kk))
            _ ?_ _ le_rfl r c hc]
        · simp only [hc, and_true]
          rw [ih t c hc, ih t ii (by omega), ih ii c hc, ih r c hc]
          rcases Nat.lt_trichotomy r t with h | h | h
          · have h1 : r ≠ t := by omega
            have h2 : r < t + 1 := by omega
            simp [h, h1, h2]
          · subst h
            simp [hti]
          · have h1 : r ≠ t := by omega
            have h2 : ¬ r < t + 1 := by omega
            have h3 : ¬ r < t := by omega
            simp [h1, h2, h3]
        · intro k A' hk h
          simp only []
          rw [h t k hk (Or.inr le_rfl), h ii k hk (Or.inl (Ne.symm hti))]
  exact key (order + 1) r c hc


theorem eliminationStep_zero (order ii : ℕ) (A : ℕ → ℚ) (h : cell order A ii ii = 0) :
    eliminationStep order ii A = none := by
  unfold cell at h
  simp [eliminationStep, h]

theorem eliminationStep_some (order ii : ℕ) (A : ℕ → ℚ) (h : cell order A ii ii ≠ 0) :
    eliminationStep order ii A
    = some (eliminateColumn order ii (normalizeRow order ii (cell order A ii ii) A)) := by
  unfold cell at h
  simp [eliminationStep, h, cell]

theorem eliminationStep_eq_none_iff (order ii : ℕ) (A : ℕ → ℚ) :
    eliminationStep order ii A = none ↔ cell order A ii ii = 0 := by
  by_cases h : cell order A ii ii = 0
  · simp [eliminationStep_zero order ii A h, h]
  · simp [eliminationStep_some order ii A h, h]

/-- The cells of the matrix after one successful elimination step. -/
theorem eliminationStep_spec (order ii : ℕ) (hii : ii < order + 1) (A A' : ℕ → ℚ)
    (h : eliminationStep order ii A = some A') (r c : ℕ) (hc : c < 2 * (order + 1)) :
    cell order A' r c
    = if r = ii then cell order A ii c / cell order A ii ii
      else if r < order + 1 then
        cell order A r c - cell order A r ii * (cell order A ii c / cell order A ii ii)
      else cell order A r c := by
  have hx : cell order A ii ii ≠ 0 := by
    intro h0
    rw [eliminationStep_zero order ii A h0] at h
    exact Option.noConfusion h
  rw [eliminationStep_some order ii A hx] at h
  injection h with h
  subst h
  rw [eliminateColumn_spec order ii hii _ r c hc]
  by_cases h1 : r = ii
  · subst h1
    simp [normalizeRow_spec order r _ A r c hc]
  · by_cases h2 : r < order + 1
    · rw [if_pos ⟨h2, h1⟩, if_neg h1, if_pos h2,
        normalizeRow_spec order ii _ A r c hc, normalizeRow_spec order ii _ A r ii (by omega),
        normalizeRow_spec order ii _ A ii c hc]
      simp [h1]
    · have : ¬ (r < order + 1 ∧ r ≠ ii) := fun h => h2 h.1
      rw [if_neg this, if_neg h1, if_neg h2, normalizeRow_spec order ii _ A r c hc, if_neg h1]

theorem elimInv_init (xs : ℕ → ℚ) (n order : ℕ) :
    ElimInv xs n order 0 (initMatrix (powerSums xs n order) order) := by
  have hR : ∀ r c, r < order + 1 → c < order + 1 →
      cell order (initMatrix (powerSums xs n order) order) r (c + (order + 1))
      = if r = c then 1 else 0 := by
    intro r c hr hc
    rw [initMatrix_spec _ _ _ _ (by omega), if_pos hr, if_neg (by omega)]
    by_cases h : r = c
    · subst h; simp
    · have : c + (order + 1) ≠ r + (order + 1) := by omega
      simp [h, this]
  refine ⟨?_, ?_, ?_⟩
  · intro r c hr hc
    have hsum : ∑ j in Finset.range (order + 1),
        cell order (initMatrix (powerSums xs n order) order) r (j + (order + 1))
          * moment xs n (j + c) = moment xs n (r + c) := by
      rw [Finset.sum_congr rfl (fun j hj => by
        rw [hR r j hr (Finset.mem_range.mp hj)])]
      simp [Finset.sum_ite_eq, hr]
    rw [hsum, initMatrix_spec _ _ _ _ (by omega), if_pos hr, if_pos hc, powerSums_spec]
    simp only []
    rw [if_pos (by omega)]
    rfl
  · intro r c _ hc; omega
  · intro r c hr hc _; exact hR r c hr hc

theorem elimInv_step (xs : ℕ → ℚ) (n order k : ℕ) (A A' : ℕ → ℚ) (hk : k < order + 1)
    (hinv : ElimInv xs n order k A) (h : eliminationStep order k A = some A') :
    ElimInv xs n order (k + 1) A' := by
  have hx : cell order A k k ≠ 0 := by
    intro h0
    rw [eliminationStep_zero order k A h0] at h
    exact Option.noConfusion h
  have spec := eliminationStep_spec order k hk A A' h
  refine ⟨?_, ?_, ?_⟩
  · intro r c hr hc
    rw [spec r c (by omega)]
    rw [Finset.sum_congr rfl (fun j hj => by
      rw [spec r (j + (order + 1)) (by have := Finset.mem_range.mp hj; omega)])]
    by_cases h1 : r = k
    · subst h1
      simp only [if_true]
      rw [hinv.left_eq r c hr hc, Finset.sum_div]
      apply Finset.sum_congr rfl
      intro j _
      ring
    · simp only [if_neg h1, if_pos hr]
      rw [hinv.left_eq r c hr hc, hinv.left_eq k c hk hc]
      simp only [sub_mul, Finset.sum_sub_distrib]
      congr 1
      rw [Finset.sum_div, Finset.mul_sum]
      apply Finset.sum_congr rfl
      intro j _
      ring
  · intro r c hr hc
    rw [spec r c (by omega)]
    rcases Nat.lt_or_ge c k with hck | hck
    · have hkc : k ≠ c := by omega
      rw [hinv.left_unit k c hk hck, if_neg hkc]
      by_cases h1 : r = k
      · subst h1; simp [hkc]
      · rw [if_neg h1, if_pos hr, hinv.left_unit r c hr hck]
        simp
    · have hck' : c = k := by omega
      subst hck'
      by_cases h1 : r = c
      · subst h1; simp [div_self hx]
      · rw [if_neg h1, if_pos hr, if_neg h1, div_self hx]
        ring
  · intro r c hr hc hkc
    rw [spec r (c + (order + 1)) (by omega)]
    have hkc' : k ≠ c := by omega
    rw [hinv.right_unit k c hk hc (by omega), if_neg hkc']
    by_cases h1 : r = k
    · subst h1; simp [hkc']
    · rw [if_neg h1, if_pos hr, hinv.right_unit r c hr hc (by omega)]
      simp

theorem elimInv_loop (xs : ℕ → ℚ) (n order : ℕ) (t : ℕ) (ht : t ≤ order + 1) (A : ℕ → ℚ)
    (h : forUpToM t (eliminationStep order) (initMatrix (powerSums xs n order) order) = some A) :
    ElimInv xs n order t A := by
  induction t generalizing A with
  | zero =>
    simp only [forUpToM] at h
    injection h with h
    subst h
    exact elimInv_init xs n order
  | succ t ih =>
    rw [forUpToM_succ] at h
    cases hprev : forUpToM t (eliminationStep order) (initMatrix (powerSums xs n order) order) with
    | none => rw [hprev] at h; exact Option.noConfusion h
    | some A1 =>
      rw [hprev] at h
      exact elimInv_step xs n order t A1 A (by omega) (ih (by omega) A1 hprev) h


/-- The pivot read at pass `k` is the sum over the samples of the squares of a polynomial
whose coefficients are the right block's row `k`. -/
theorem pivot_eq_sum_sq (xs : ℕ → ℚ) (n order k : ℕ) (A : ℕ → ℚ) (hk : k < order + 1)
    (hinv : ElimInv xs n order k A) :
    cell order A k k
    = ∑ s in Finset.range n,
        (∑ j in Finset.range (order + 1), cell order A k (j + (order + 1)) * xs s ^ j) ^ 2 := by
  have h1 : ∑ c in Finset.range (order + 1), cell order A k (c + (order + 1)) * cell order A k c
      = cell order A k k := by
    rw [Finset.sum_eq_single k]
    · rw [hinv.right_unit k k hk hk le_rfl]; simp
    · intro c hc hck
      have hc' := Finset.mem_range.mp hc
      rcases Nat.lt_or_ge c k with h | h
      · rw [hinv.left_unit k c hk h, if_neg (Ne.symm hck)]; simp
      · rw [hinv.right_unit k c hk hc' h, if_neg (Ne.symm hck)]; simp
    · intro h; exact absurd (Finset.mem_range.mpr hk) h
  rw [← h1]
  rw [Finset.sum_congr rfl (fun c hc => by
    rw [hinv.left_eq k c hk (Finset.mem_range.mp hc)])]
  simp only [moment, Finset.mul_sum, sq, Finset.sum_mul]
  rw [Finset.sum_congr rfl (fun c _ => Finset.sum_comm), Finset.sum_comm]
  apply Finset.sum_congr rfl
  intro s _
  apply Finset.sum_congr rfl
  intro c _
  apply Finset.sum_congr rfl
  intro j _
  rw [pow_add]
  ring

/-- With at least `order + 1` distinct abscissae the pivot of every pass is non-zero. -/
theorem pivot_ne_zero (xs : ℕ → ℚ) (n order k : ℕ) (A : ℕ → ℚ) (hk : k < order + 1)
    (hinv : ElimInv xs n order k A)
    (hd : order + 1 ≤ (Finset.image xs (Finset.range n)).card) :
    cell order A k k ≠ 0 := by
  intro h0
  rw [pivot_eq_sum_sq xs n order k A hk hinv] at h0
  have hz := (Finset.sum_eq_zero_iff_of_nonneg (fun s _ => sq_nonneg _)).mp h0
  let q : Polynomial ℚ := ∑ j in Finset.range (order + 1),
    Polynomial.C (cell order A k (j + (order + 1))) * Polynomial.X ^ j
  have hcoeff : ∀ t, q.coeff t
      = if t < order + 1 then cell order A k (t + (order + 1)) else 0 := by
    intro t
    simp only [q, Polynomial.finset_sum_coeff, Polynomial.coeff_C_mul_X_pow]
    simp [Finset.sum_ite_eq]
  have hdeg : q.degree < ((Finset.image xs (Finset.range n)).card : WithBot ℕ) := by
    refine lt_of_lt_of_le ?_ (Nat.cast_le.mpr hd)
    rw [Polynomial.degree_lt_iff_coeff_zero]
    intro t ht
    rw [hcoeff t, if_neg (by omega)]
  have heval : ∀ x ∈ Finset.image xs (Finset.range n), q.eval x = 0 := by
    intro x hx
    obtain ⟨s, hs, rfl⟩ := Finset.mem_image.mp hx
    have := hz s hs
    simp only [q, Polynomial.eval_finset_sum, Polynomial.eval_mul, Polynomial.eval_C,
      Polynomial.eval_pow, Polynomial.eval_X]
    exact pow_eq_zero_iff (two_ne_zero) |>.mp this
  have hq := Polynomial.eq_zero_of_degree_lt_of_eval_finset_eq_zero _ hdeg heval
  have hk1 := hcoeff k
  rw [hq, if_pos hk, hinv.right_unit k k hk hk le_rfl] at hk1
  simp at hk1

/-- With at least `order + 1` distinct abscissae every pass of the elimination succeeds. -/
theorem forUpToM_elim_isSome (xs : ℕ → ℚ) (n order : ℕ)
    (hd : order + 1 ≤ (Finset.image xs (Finset.range n)).card) (t : ℕ) (ht : t ≤ order + 1) :
    ∃ A, forUpToM t (eliminationStep order) (initMatrix (powerSums xs n order) order)
      = some A := by
  induction t with
  | zero => exact ⟨_, rfl⟩
  | succ t ih =>
    obtain ⟨A, hA⟩ := ih (by omega)
    have hinv := elimInv_loop xs n order t (by omega) A hA
    have hp := pivot_ne_zero xs n order t A (by omega) hinv hd
    rw [forUpToM_succ, hA]
    exact ⟨_, eliminationStep_some order t A hp⟩

/-- After a successful elimination the right block is a left inverse of the moment matrix. -/
theorem invertLeft_inverse (xs : ℕ → ℚ) (n order : ℕ) (A : ℕ → ℚ)
    (h : invertLeft order (initMatrix (powerSums xs n order) order) = some A)
    (r c : ℕ) (hr : r < order + 1) (hc : c < order + 1) :
    ∑ j in Finset.range (order + 1), cell order A r (j + (order + 1)) * moment xs n (j + c)
    = if r = c then 1 else 0 := by
  have hinv := elimInv_loop xs n order (order + 1) le_rfl A h
  rw [← hinv.left_eq r c hr hc, hinv.left_unit r c hr hc]

theorem writeCoefficients_spec (order : ℕ) (A B coefficients : ℕ → ℚ) :
    writeCoefficients order A B coefficients
    = fun i => if i < order + 1 then
        ∑ k in Finset.range (order + 1), cell order A i (k + (order + 1)) * B k
      else coefficients i := by
  unfold writeCoefficients
  have key : ∀ t, forUpTo t (fun ii coefficients =>
      forUpTo (order + 1) (fun _jj coefficients =>
        let x := forUpTo (order + 1) (fun kk x =>
          x + (A ((ii * (2 * (order + 1))) + (kk + (order + 1))) * B kk)) 0
        store coefficients ii x) coefficients) coefficients
      = fun i => if i < t then
          ∑ k in Finset.range (order + 1), cell order A i (k + (order + 1)) * B k
        else coefficients i := by
    intro t
    induction t with
    | zero => funext i; simp [forUpTo]
    | succ t ih =>
      rw [forUpTo_succ, ih]
      simp only []
      rw [forUpTo_store_const, forUpTo_sum]
      funext i
      rcases Nat.lt_trichotomy i t with h | h | h
      · have h1 : i ≠ t := by omega
        have h2 : i < t + 1 := by omega
        simp [store, h, h1, h2]
      · subst h; simp [store, cell]
      · have h1 : i ≠ t := by omega
        have h2 : ¬ i < t + 1 := by omega
        have h3 : ¬ i < t := by omega
        simp [store, h1, h2, h3]
  exact key (order + 1)

/-- The result of `polyfit` when the elimination succeeds. -/
theorem polyfit_of_invertLeft_some (xs ys : ℕ → ℚ) (n order : ℕ) (coefficients A : ℕ → ℚ)
    (hn : order < n) (ho : order ≤ maxOrder)
    (h : invertLeft order (initMatrix (powerSums xs n order) order) = some A) :
    polyfit xs ys n order coefficients
    = (0, fun i => if i < order + 1 then
        ∑ k in Finset.range (order + 1), cell order A i (k + (order + 1))
          * ∑ s in Finset.range n, ys s * xs s ^ k
      else coefficients i) := by
  unfold polyfit
  rw [if_neg (by omega), if_neg (by omega)]
  simp only [h, writeCoefficients_spec, columnVector_spec]
  congr 1
  funext i
  by_cases hi : i < order + 1
  · simp only [hi, if_true]
    apply Finset.sum_congr rfl
    intro k hk
    rw [if_pos (Finset.mem_range.mp hk)]
  · simp [hi]

/-- The result of `polyfit` when the elimination meets a zero pivot. -/
theorem polyfit_of_invertLeft_none (xs ys : ℕ → ℚ) (n order : ℕ) (coefficients : ℕ → ℚ)
    (h : invertLeft order (initMatrix (powerSums xs n order) order) = none) :
    polyfit xs ys n order coefficients = (-1, coefficients) := by
  unfold polyfit
  by_cases h1 : n ≤ order
  · rw [if_pos h1]
  · rw [if_neg h1]
    by_cases h2 : order > maxOrder
    · rw [if_pos h2]
    · rw [if_neg h2]
      simp only [h]


/-! ## function_poly and trapezoidal -/

theorem function_poly_eq_sum (coefficients : ℕ → ℚ) (x : ℚ) (order : ℤ) :
    function_poly coefficients x order
    = ∑ i in Finset.range (order + 1).toNat, x ^ i * coefficients i := by
  unfold function_poly
  rw [forUpTo_sum, zero_add]

/-- The evaluator reads the coefficients `0 … order` only. -/
theorem function_poly_congr (c d : ℕ → ℚ) (x : ℚ) (order : ℤ)
    (h : ∀ i : ℕ, (i : ℤ) ≤ order → c i = d i) :
    function_poly c x order = function_poly d x order := by
  rw [function_poly_eq_sum, function_poly_eq_sum]
  apply Finset.sum_congr rfl
  intro i hi
  have := Finset.mem_range.mp hi
  rw [h i (by omega)]

theorem function_poly_const (coefficients : ℕ → ℚ) (x v : ℚ) (order : ℤ) (ho : 0 ≤ order)
    (h0 : coefficients 0 = v)
    (hhi : ∀ i : ℕ, 1 ≤ i → (i : ℤ) ≤ order → coefficients i = 0) :
    function_poly coefficients x order = v := by
  rw [function_poly_eq_sum]
  obtain ⟨k, hk⟩ : ∃ k : ℕ, (order + 1).toNat = k + 1 := ⟨order.toNat, by omega⟩
  rw [hk, Finset.sum_range_succ', Finset.sum_eq_zero]
  · simp [h0]
  · intro i hi
    have := Finset.mem_range.mp hi
    rw [hhi (i + 1) (by omega) (by omega)]
    simp

theorem trapezoidal_of_ne_zero (coefficients : ℕ → ℚ) (order : ℤ) (a b n : ℚ) (hn : n ≠ 0) :
    trapezoidal coefficients order a b n
    = some (((b - a) / n / 2) *
        forUpTo (⌈n⌉ - 1).toNat (fun k s =>
          s + 2 * function_poly coefficients (a + ((k + 1 : ℕ) : ℚ) * ((b - a) / n)) order)
          (function_poly coefficients a order + function_poly coefficients b order)) := by
  simp [trapezoidal, fdiv, hn]

/-- The integrator reads the coefficients `0 … order` only. -/
theorem trapezoidal_congr (c d : ℕ → ℚ) (order : ℤ) (a b n : ℚ)
    (h : ∀ i : ℕ, (i : ℤ) ≤ order → c i = d i) :
    trapezoidal c order a b n = trapezoidal d order a b n := by
  unfold trapezoidal
  have : ∀ x, function_poly c x order = function_poly d x order :=
    fun x => function_poly_congr c d x order h
  simp only [this]

/-- The trapezoidal rule on a constant function. -/
theorem trapezoidal_const (coefficients : ℕ → ℚ) (order : ℤ) (v a b : ℚ) (n : ℕ)
    (ho : 0 ≤ order) (h0 : coefficients 0 = v)
    (hhi : ∀ i : ℕ, 1 ≤ i → (i : ℤ) ≤ order → coefficients i = 0) (hn : 1 ≤ n) :
    trapezoidal coefficients order a b (n : ℚ) = some (v * (b - a)) := by
  have hn0 : (n : ℚ) ≠ 0 := by
    have : (0 : ℚ) < n := by exact_mod_cast hn
    exact ne_of_gt this
  rw [trapezoidal_of_ne_zero _ _ _ _ _ hn0]
  simp only [function_poly_const coefficients _ v order ho h0 hhi]
  rw [forUpTo_sum, Int.ceil_natCast]
  have hcnt : ((n : ℤ) - 1).toNat = n - 1 := by omega
  rw [hcnt]
  simp only [Finset.sum_const, Finset.card_range, nsmul_eq_mul]
  congr 1
  have hcast : ((n - 1 : ℕ) : ℚ) = (n : ℚ) - 1 := by
    rw [Nat.cast_sub hn]; simp
  rw [hcast]
  field_simp
  ring

theorem trapezoidal_same (coefficients : ℕ → ℚ) (order : ℤ) (a n : ℚ) (hn : n ≠ 0) :
    trapezoidal coefficients order a a n = some 0 := by
  rw [trapezoidal_of_ne_zero _ _ _ _ _ hn]
  simp

theorem Max_comm (x y : ℚ) : Max x y = Max y x := by
  unfold Max
  by_cases h1 : x > y
  · have h2 : ¬ y > x := not_lt.mpr (le_of_lt h1)
    simp [h1, h2]
  · by_cases h2 : y > x
    · simp [h1, h2]
    · have : x = y := le_antisymm (not_lt.mp h1) (not_lt.mp h2)
      simp [this]

theorem Min_comm (x y : ℚ) : Min x y = Min y x := by
  unfold Min
  by_cases h1 : x < y
  · have h2 : ¬ y < x := not_lt.mpr (le_of_lt h1)
    simp [h1, h2]
  · by_cases h2 : y < x
    · simp [h1, h2]
    · have : x = y := le_antisymm (not_lt.mp h2) (not_lt.mp h1)
      simp [this]

theorem Max_eq_max (x y : ℚ) : Max x y = max x y := by
  unfold Max
  by_cases h : x > y
  · rw [if_pos h, max_eq_left (le_of_lt h)]
  · rw [if_neg h, max_eq_right (not_lt.mp h)]

theorem Min_eq_min (x y : ℚ) : Min x y = min x y := by
  unfold Min
  by_cases h : x < y
  · rw [if_pos h, min_eq_left (le_of_lt h)]
  · rw [if_neg h, min_eq_right (not_lt.mp h)]

/-! ## The claims -/

/-- C3: `polyfit` returns the failure status `-1`, not `0`, for every call with
`countOfElements ≤ order` and for every call with `order > 100`, whatever the samples and
the buffer hold. -/
theorem polyfit_rejects_bad_sizes (dependentValues independentValues : ℕ → ℚ)
    (countOfElements order : ℕ) (coefficients : ℕ → ℚ)
    (h : countOfElements ≤ order ∨ 100 < order) :
    (polyfit dependentValues independentValues countOfElements order coefficients).1 = -1
    ∧ (polyfit dependentValues independentValues countOfElements order coefficients).1 ≠ 0 := by
  have key : (polyfit dependentValues independentValues countOfElements order coefficients).1
      = -1 := by
    unfold polyfit
    by_cases h1 : countOfElements ≤ order
    · rw [if_pos h1]
    · rw [if_neg h1]
      have h2 : order > maxOrder := by
        rcases h with h | h
        · exact absurd h h1
        · exact h
      rw [if_pos h2]
  rw [key]
  exact ⟨rfl, by decide⟩

theorem polyfit_rejects_bad_sizes_witness :
    ((polyfit (fun i => i) (fun _ => 1) 3 5 (fun _ => 0)).1 = -1
      ∧ (polyfit (fun i => i) (fun _ => 1) 3 5 (fun _ => 0)).1 ≠ 0)
    ∧ ((polyfit (fun i => i) (fun _ => 1) 200 101 (fun _ => 0)).1 = -1
      ∧ (polyfit (fun i => i) (fun _ => 1) 200 101 (fun _ => 0)).1 ≠ 0) :=
  ⟨polyfit_rejects_bad_sizes _ _ 3 5 _ (Or.inl (by decide)),
   polyfit_rejects_bad_sizes _ _ 200 101 _ (Or.inr (by decide))⟩

/-- C5: for every constant `c`, every interval `[a, b]` and every panel count `n ≥ 1`,
`trapezoidal` applied to the constant polynomial (`coefficients[0] = c`, the higher
coefficients up to `order` zero) returns `c * (b - a)`. -/
theorem trapezoidal_constant_exact (coefficients : ℕ → ℚ) (order : ℤ) (c a b : ℚ) (n : ℕ)
    (horder : 0 ≤ order) (h0 : coefficients 0 = c)
    (hhi : ∀ i : ℕ, 1 ≤ i → (i : ℤ) ≤ order → coefficients i = 0) (hn : 1 ≤ n) :
    trapezoidal coefficients order a b (n : ℚ) = some (c * (b - a)) :=
  trapezoidal_const coefficients order c a b n horder h0 hhi hn

theorem trapezoidal_constant_exact_witness :
    trapezoidal (fun i => if i = 0 then 10 else 0) 5 0 8 ((100 : ℕ) : ℚ)
      = some (10 * (8 - 0)) :=
  trapezoidal_constant_exact (fun i => if i = 0 then 10 else 0) 5 10 0 8 100
    (by decide) (by simp) (fun i hi _ => by simp; omega) (by decide)

/-- In exact arithmetic, where no sum can overflow, `trapezoidal(coefficients, order, a, a,
100)` is `0` for every coefficient vector, order and point `a`. -/
theorem trapezoidal_exact_zero_width (coefficients : ℕ → ℚ) (order : ℤ) (a : ℚ) :
    trapezoidal coefficients order a a 100 = some 0 :=
  trapezoidal_same coefficients order a 100 (by norm_num)


theorem invertLeft_eq (order : ℕ) (A : ℕ → ℚ) :
    invertLeft order A = forUpToM (order + 1) (eliminationStep order) A := rfl

/-- A successful `polyfit` passed both size checks and the whole elimination. -/
theorem polyfit_status_zero (xs ys : ℕ → ℚ) (n order : ℕ) (coefficients : ℕ → ℚ)
    (h : (polyfit xs ys n order coefficients).1 = 0) :
    order < n ∧ order ≤ maxOrder
    ∧ ∃ A, invertLeft order (initMatrix (powerSums xs n order) order) = some A := by
  unfold polyfit at h
  by_cases h1 : n ≤ order
  · rw [if_pos h1] at h; simp at h
  · rw [if_neg h1] at h
    by_cases h2 : order > maxOrder
    · rw [if_pos h2] at h; simp at h
    · rw [if_neg h2] at h
      refine ⟨by omega, by omega, ?_⟩
      cases hA : invertLeft order (initMatrix (powerSums xs n order) order) with
      | some A => exact ⟨A, rfl⟩
      | none =>
        simp [hA] at h

/-- Exact recovery for any order: with at least `order + 1` distinct abscissae the fit of
samples of a polynomial returns that polynomial and leaves the rest of the buffer alone. -/
theorem polyfit_recovers_general (p xs : ℕ → ℚ) (n order : ℕ) (coefficients : ℕ → ℚ)
    (hn : order < n) (ho : order ≤ maxOrder)
    (hd : order + 1 ≤ (Finset.image xs (Finset.range n)).card) :
    polyfit xs (fun s => ∑ i in Finset.range (order + 1), p i * xs s ^ i) n order coefficients
    = (0, fun i => if i < order + 1 then p i else coefficients i) := by
  obtain ⟨A, hA⟩ := forUpToM_elim_isSome xs n order hd (order + 1) le_rfl
  rw [polyfit_of_invertLeft_some xs _ n order coefficients A hn ho hA]
  congr 1
  funext i
  by_cases hi : i < order + 1
  · simp only [hi, if_true]
    have hB : ∀ k, ∑ s in Finset.range n,
        (∑ j in Finset.range (order + 1), p j * xs s ^ j) * xs s ^ k
        = ∑ j in Finset.range (order + 1), p j * moment xs n (k + j) := by
      intro k
      simp only [moment, Finset.sum_mul, Finset.mul_sum]
      rw [Finset.sum_comm]
      apply Finset.sum_congr rfl
      intro j _
      apply Finset.sum_congr rfl
      intro s _
      rw [pow_add]
      ring
    simp only [hB, Finset.mul_sum]
    rw [Finset.sum_comm]
    have hcol : ∀ j ∈ Finset.range (order + 1),
        ∑ k in Finset.range (order + 1),
          cell order A i (k + (order + 1)) * (p j * moment xs n (k + j))
        = p j * (if i = j then 1 else 0) := by
      intro j hj
      rw [← invertLeft_inverse xs n order A hA i j hi (Finset.mem_range.mp hj), Finset.mul_sum]
      apply Finset.sum_congr rfl
      intro k _
      ring
    rw [Finset.sum_congr rfl hcol]
    simp [Finset.sum_ite_eq, hi]
  · simp [hi]

/-- With all abscissae equal and `order ≥ 1` the second pivot is zero. -/
theorem polyfit_equal_abscissae (xs ys : ℕ → ℚ) (n order : ℕ) (coefficients : ℕ → ℚ)
    (ho : 1 ≤ order) (hx : ∀ s, s < n → xs s = xs 0) :
    polyfit xs ys n order coefficients = (-1, coefficients) := by
  apply polyfit_of_invertLeft_none
  have hmom : ∀ t, moment xs n t = (n : ℚ) * xs 0 ^ t := by
    intro t
    unfold moment
    rw [Finset.sum_congr rfl (fun s hs => by rw [hx s (Finset.mem_range.mp hs)])]
    simp
  have hcell : ∀ r c, r < order + 1 → c < order + 1 →
      cell order (initMatrix (powerSums xs n order) order) r c = (n : ℚ) * xs 0 ^ (r + c) := by
    intro r c hr hc
    rw [initMatrix_spec _ _ _ _ (by omega), if_pos hr, if_pos hc, powerSums_spec]
    simp only []
    rw [if_pos (by omega)]
    exact hmom (r + c)
  rw [invertLeft_eq]
  obtain ⟨m, hm⟩ : ∃ m, order + 1 = m + 2 := ⟨order - 1, by omega⟩
  have hnone : forUpToM 2 (eliminationStep order) (initMatrix (powerSums xs n order) order)
      = none := by
    rw [forUpToM_succ, forUpToM_succ]
    simp only [forUpToM, Option.some_bind]
    cases h0 : eliminationStep order 0 (initMatrix (powerSums xs n order) order) with
    | none => rfl
    | some A1 =>
      simp only [Option.some_bind]
      apply eliminationStep_zero
      have hp : cell order (initMatrix (powerSums xs n order) order) 0 0 ≠ 0 := by
        intro hz
        rw [eliminationStep_zero _ _ _ hz] at h0
        exact Option.noConfusion h0
      rw [eliminationStep_spec order 0 (by omega) _ A1 h0 1 1 (by omega)]
      rw [hcell 0 0 (by omega) (by omega)] at hp
      simp only [one_ne_zero, if_false]
      rw [if_pos (by omega), hcell 1 1 (by omega) (by omega), hcell 1 0 (by omega) (by omega),
        hcell 0 1 (by omega) (by omega), hcell 0 0 (by omega) (by omega)]
      have hn0 : (n : ℚ) ≠ 0 := by
        intro hz; apply hp; rw [hz]; simp
      field_simp
      ring
  have hmono : ∀ t, forUpToM (2 + t) (eliminationStep order)
      (initMatrix (powerSums xs n order) order) = none := by
    intro t
    induction t with
    | zero => exact hnone
    | succ t ih =>
      rw [← Nat.add_assoc, forUpToM_succ, ih]
      rfl
  rw [hm, Nat.add_comm m 2]
  exact hmono m


/-- A loop with early exit fails exactly when some pass that is reached fails. -/
theorem forUpToM_eq_none_iff {σ : Type} (t : ℕ) (body : ℕ → σ → Option σ) (s : σ) :
    forUpToM t body s = none
    ↔ ∃ i s', i < t ∧ forUpToM i body s = some s' ∧ body i s' = none := by
  induction t with
  | zero => simp [forUpToM]
  | succ t ih =>
    rw [forUpToM_succ]
    cases hprev : forUpToM t body s with
    | none =>
      simp only [Option.none_bind, true_iff]
      obtain ⟨i, s', hi, h1, h2⟩ := ih.mp hprev
      exact ⟨i, s', by omega, h1, h2⟩
    | some s1 =>
      simp only [Option.some_bind]
      constructor
      · intro h
        exact ⟨t, s1, by omega, hprev, h⟩
      · rintro ⟨i, s', hi, h1, h2⟩
        rcases Nat.lt_or_ge i t with hlt | hge
        · have : forUpToM t body s = none := ih.mpr ⟨i, s', hlt, h1, h2⟩
          rw [hprev] at this
          exact Option.noConfusion this
        · have hit : i = t := by omega
          subst hit
          rw [hprev] at h1
          injection h1 with h1
          subst h1
          exact h2

/-- In exact arithmetic, past the two size guards, `polyfit` returns `-1` if and only if
some diagonal pivot `A[ii][ii]` read at the start of an elimination pass is zero, and
otherwise it returns `0`; samples whose abscissae are all equal then make it fail for every
order from 1 on. -/
theorem polyfit_exact_singular_iff (xs ys : ℕ → ℚ) (n order : ℕ)
    (coefficients : ℕ → ℚ) (ho : order ≤ 100) (hn : order < n) :
    ((polyfit xs ys n order coefficients).1 = -1
      ↔ ∃ ii A, ii < order + 1
          ∧ forUpToM ii (eliminationStep order) (initMatrix (powerSums xs n order) order)
              = some A
          ∧ A ((ii * (2 * (order + 1))) + ii) = 0)
    ∧ ((polyfit xs ys n order coefficients).1 ≠ -1
        → (polyfit xs ys n order coefficients).1 = 0)
    ∧ (1 ≤ order → (∀ s, s < n → xs s = xs 0)
        → (polyfit xs ys n order coefficients).1 = -1) := by
  have hpiv : ∀ ii (A : ℕ → ℚ),
      eliminationStep order ii A = none ↔ A ((ii * (2 * (order + 1))) + ii) = 0 :=
    fun ii A => eliminationStep_eq_none_iff order ii A
  cases hA : invertLeft order (initMatrix (powerSums xs n order) order) with
  | none =>
    rw [polyfit_of_invertLeft_none xs ys n order coefficients hA]
    refine ⟨⟨fun _ => ?_, fun _ => rfl⟩, fun h => absurd rfl h, fun _ _ => rfl⟩
    rw [invertLeft_eq, forUpToM_eq_none_iff] at hA
    obtain ⟨ii, A, hii, h1, h2⟩ := hA
    exact ⟨ii, A, hii, h1, (hpiv ii A).mp h2⟩
  | some A1 =>
    rw [polyfit_of_invertLeft_some xs ys n order coefficients A1 hn ho hA]
    refine ⟨⟨fun h => absurd h (by simp), ?_⟩, fun _ => rfl, ?_⟩
    · rintro ⟨ii, A, hii, h1, h2⟩
      have : invertLeft order (initMatrix (powerSums xs n order) order) = none := by
        rw [invertLeft_eq, forUpToM_eq_none_iff]
        exact ⟨ii, A, hii, h1, (hpiv ii A).mpr h2⟩
      rw [hA] at this
      exact Option.noConfusion this
    · intro h1 hx
      have := polyfit_equal_abscissae xs ys n order coefficients h1 hx
      rw [polyfit_of_invertLeft_some xs ys n order coefficients A1 hn ho hA] at this
      exact absurd (congrArg Prod.fst this) (by simp)

/-- Six samples at the abscissa `2`: in exact arithmetic the fit of order 5 fails on a zero
pivot. -/
theorem polyfit_exact_singular_example :
    (polyfit (fun _ => 2) (fun _ => 1) 6 5 (fun _ => 0)).1 = -1
    ∧ ∃ ii A, ii < 5 + 1
        ∧ forUpToM ii (eliminationStep 5) (initMatrix (powerSums (fun _ => 2) 6 5) 5) = some A
        ∧ A ((ii * (2 * (5 + 1))) + ii) = 0 :=
  have h := polyfit_exact_singular_iff (fun _ => 2) (fun _ => 1) 6 5 (fun _ => 0)
    (by decide) (by decide)
  ⟨h.2.2 (by decide) (fun _ _ => rfl), h.1.mp (h.2.2 (by decide) (fun _ _ => rfl))⟩


/-- With the fixed panel count 100 the integrator always returns a finite value. -/
theorem trapezoidal_100 (coefficients : ℕ → ℚ) (order : ℤ) (a b : ℚ) :
    ∃ v, trapezoidal coefficients order a b 100 = some v :=
  ⟨_, trapezoidal_of_ne_zero coefficients order a b 100 (by norm_num)⟩

theorem trapezoidal_const_100 (coefficients : ℕ → ℚ) (order : ℤ) (v a b : ℚ)
    (ho : 0 ≤ order) (h0 : coefficients 0 = v)
    (hhi : ∀ i : ℕ, 1 ≤ i → (i : ℤ) ≤ order → coefficients i = 0) :
    trapezoidal coefficients order a b 100 = some (v * (b - a)) := by
  have := trapezoidal_const coefficients order v a b 100 ho h0 hhi (by decide)
  simpa using this

/-- The body of the join estimator once the four integrals are known. -/
theorem join_unfold (xa ya : ℕ → ℚ) (min_a max_a : ℚ) (xb yb : ℕ → ℚ) (min_b max_b : ℚ)
    (n : ℕ) (ca cb : ℕ → ℚ) (totalA totalB : ℚ)
    (hA : trapezoidal (polyfit xa ya n 5 ca).2 5 min_a max_a 100 = some totalA)
    (hB : trapezoidal (polyfit xb yb n 5 cb).2 5 min_b max_b 100 = some totalB) :
    calculate_range_join_overlap_fraction xa ya min_a max_a xb yb min_b max_b n ca cb
    = if Max min_b min_a < Min max_b max_a then
        (trapezoidal (polyfit xa ya n 5 ca).2 5 (Max min_b min_a) (Min max_b max_a) 100).bind
          fun intersect_a =>
        (trapezoidal (polyfit xb yb n 5 cb).2 5 (Max min_b min_a) (Min max_b max_a) 100).bind
          fun intersect_b =>
        (fdiv intersect_a totalA).bind fun ratio_a =>
        (fdiv intersect_b totalB).bind fun ratio_b => some (ratio_a * ratio_b)
      else some 0 := by
  unfold calculate_range_join_overlap_fraction
  simp only [Nat.cast_ofNat]
  rw [hA, hB]
  rfl

/-- C7: for every input where both order-5 fits succeed and
`max(min_a, min_b) < min(max_a, max_b)`, the join estimator returns
`(partialA / totalA) * (partialB / totalB)`, where `totalX` is the 100-panel trapezoidal
integral of the fit of `X` over its own domain and `partialX` the one over the overlap;
the result is non-finite exactly when one of the two divisions is by zero. -/
theorem join_overlap_formula (xa ya : ℕ → ℚ) (min_a max_a : ℚ) (xb yb : ℕ → ℚ)
    (min_b max_b : ℚ) (n : ℕ) (ca cb : ℕ → ℚ)
    (_ha : (polyfit xa ya n 5 ca).1 = 0) (_hb : (polyfit xb yb n 5 cb).1 = 0)
    (hov : Max min_a min_b < Min max_a max_b) :
    ∃ totalA partialA totalB partialB : ℚ,
      trapezoidal (polyfit xa ya n 5 ca).2 5 min_a max_a 100 = some totalA
      ∧ trapezoidal (polyfit xa ya n 5 ca).2 5 (Max min_a min_b) (Min max_a max_b) 100
          = some partialA
      ∧ trapezoidal (polyfit xb yb n 5 cb).2 5 min_b max_b 100 = some totalB
      ∧ trapezoidal (polyfit xb yb n 5 cb).2 5 (Max min_a min_b) (Min max_a max_b) 100
          = some partialB
      ∧ calculate_range_join_overlap_fraction xa ya min_a max_a xb yb min_b max_b n ca cb
          = ((fdiv partialA totalA).bind fun ra =>
              (fdiv partialB totalB).bind fun rb => some (ra * rb))
      ∧ (totalA ≠ 0 → totalB ≠ 0 →
          calculate_range_join_overlap_fraction xa ya min_a max_a xb yb min_b max_b n ca cb
            = some ((partialA / totalA) * (partialB / totalB))) := by
  obtain ⟨totalA, hA⟩ := trapezoidal_100 (polyfit xa ya n 5 ca).2 5 min_a max_a
  obtain ⟨totalB, hB⟩ := trapezoidal_100 (polyfit xb yb n 5 cb).2 5 min_b max_b
  obtain ⟨partialA, hpA⟩ :=
    trapezoidal_100 (polyfit xa ya n 5 ca).2 5 (Max min_a min_b) (Min max_a max_b)
  obtain ⟨partialB, hpB⟩ :=
    trapezoidal_100 (polyfit xb yb n 5 cb).2 5 (Max min_a min_b) (Min max_a max_b)
  have hres : calculate_range_join_overlap_fraction xa ya min_a max_a xb yb min_b max_b n ca cb
      = (fdiv partialA totalA).bind fun ra =>
          (fdiv partialB totalB).bind fun rb => some (ra * rb) := by
    rw [join_unfold xa ya min_a max_a xb yb min_b max_b n ca cb totalA totalB hA hB,
      Max_comm min_b min_a, Min_comm max_b max_a, if_pos hov, hpA, hpB]
    simp only [Option.some_bind]
  refine ⟨totalA, partialA, totalB, partialB, hA, hpA, hB, hpB, hres, ?_⟩
  intro h1 h2
  rw [hres]
  simp [fdiv, h1, h2]

/-- C8: whenever `max_a < min_b` or `max_b < min_a`, and more generally whenever
`max(min_a, min_b) ≥ min(max_a, max_b)`, the join estimator returns exactly `0`, whatever
the samples and the prior buffer contents are and whether or not the fits succeed. -/
theorem join_disjoint_zero (xa ya : ℕ → ℚ) (min_a max_a : ℚ) (xb yb : ℕ → ℚ)
    (min_b max_b : ℚ) (n : ℕ) (ca cb : ℕ → ℚ)
    (h : (max_a < min_b ∨ max_b < min_a) ∨ Min max_a max_b ≤ Max min_a min_b) :
    calculate_range_join_overlap_fraction xa ya min_a max_a xb yb min_b max_b n ca cb
    = some 0 := by
  obtain ⟨totalA, hA⟩ := trapezoidal_100 (polyfit xa ya n 5 ca).2 5 min_a max_a
  obtain ⟨totalB, hB⟩ := trapezoidal_100 (polyfit xb yb n 5 cb).2 5 min_b max_b
  rw [join_unfold xa ya min_a max_a xb yb min_b max_b n ca cb totalA totalB hA hB]
  have hge : ¬ Max min_b min_a < Min max_b max_a := by
    rw [Max_eq_max, Min_eq_min, not_lt]
    rcases h with (h | h) | h
    · exact le_trans (min_le_right _ _) (le_trans (le_of_lt h) (le_max_left _ _))
    · exact le_trans (min_le_left _ _) (le_trans (le_of_lt h) (le_max_right _ _))
    · rw [Max_eq_max, Min_eq_min] at h
      rw [max_comm, min_comm]
      exact h
  rw [if_neg hge]

theorem join_disjoint_zero_witness :
    calculate_range_join_overlap_fraction (fun s => (s : ℚ)) (fun _ => 10) 0 8
      (fun s => (s : ℚ) + 9) (fun _ => 10) 9 17 7 (fun _ => 0) (fun _ => 0) = some 0 :=
  join_disjoint_zero _ _ 0 8 _ _ 9 17 7 _ _ (Or.inl (Or.inl (by norm_num)))

/-- C10: for every histogram and domain `[min_a, max_a]` (so `min_a ≤ max_a`), the left-of
estimator returns exactly `0` when the threshold is below `min_a` and exactly `1` when it
is above `max_a`, whatever the samples, the prior buffer content and the fit are. -/
theorem left_of_shortcuts (xa ya : ℕ → ℚ) (min_a max_a : ℚ) (n : ℕ) (const_lower : ℚ)
    (ca : ℕ → ℚ) :
    (const_lower < min_a →
      calculate_range_left_of_fraction xa ya min_a max_a n const_lower ca = some 0)
    ∧ (min_a ≤ max_a → const_lower > max_a →
      calculate_range_left_of_fraction xa ya min_a max_a n const_lower ca = some 1) := by
  constructor
  · intro h
    unfold calculate_range_left_of_fraction
    simp only []
    rw [if_pos h]
  · intro hdom h
    have h1 : ¬ const_lower < min_a := not_lt.mpr (le_trans hdom (le_of_lt h))
    unfold calculate_range_left_of_fraction
    simp only []
    rw [if_neg h1, if_pos h]

theorem left_of_shortcuts_witness :
    calculate_range_left_of_fraction (fun s => (s : ℚ)) (fun _ => 10) 0 8 7 (-1) (fun _ => 0)
      = some 0
    ∧ calculate_range_left_of_fraction (fun s => (s : ℚ)) (fun _ => 10) 0 8 7 9 (fun _ => 0)
      = some 1 :=
  ⟨(left_of_shortcuts _ _ 0 8 7 (-1) _).1 (by norm_num),
   (left_of_shortcuts _ _ 0 8 7 9 _).2 (by norm_num) (by norm_num)⟩


theorem join_overlap_formula_witness :
    ∃ totalA partialA totalB partialB : ℚ,
      trapezoidal (polyfit (fun s => 4 / 7 + 8 * (s : ℚ) / 7) (fun _ => 10) 7 5
          (fun _ => 0)).2 5 0 8 100 = some totalA
      ∧ trapezoidal (polyfit (fun s => 4 / 7 + 8 * (s : ℚ) / 7) (fun _ => 10) 7 5
          (fun _ => 0)).2 5 (Max 0 4) (Min 8 12) 100 = some partialA
      ∧ trapezoidal (polyfit (fun s => 4 + 4 / 7 + 8 * (s : ℚ) / 7) (fun _ => 10) 7 5
          (fun _ => 0)).2 5 4 12 100 = some totalB
      ∧ trapezoidal (polyfit (fun s => 4 + 4 / 7 + 8 * (s : ℚ) / 7) (fun _ => 10) 7 5
          (fun _ => 0)).2 5 (Max 0 4) (Min 8 12) 100 = some partialB
      ∧ calculate_range_join_overlap_fraction (fun s => 4 / 7 + 8 * (s : ℚ) / 7) (fun _ => 10)
          0 8 (fun s => 4 + 4 / 7 + 8 * (s : ℚ) / 7) (fun _ => 10) 4 12 7
          (fun _ => 0) (fun _ => 0)
          = ((fdiv partialA totalA).bind fun ra =>
              (fdiv partialB totalB).bind fun rb => some (ra * rb))
      ∧ (totalA ≠ 0 → totalB ≠ 0 →
          calculate_range_join_overlap_fraction (fun s => 4 / 7 + 8 * (s : ℚ) / 7)
            (fun _ => 10) 0 8 (fun s => 4 + 4 / 7 + 8 * (s : ℚ) / 7) (fun _ => 10) 4 12 7
            (fun _ => 0) (fun _ => 0)
            = some ((partialA / totalA) * (partialB / totalB))) :=
  join_overlap_formula (fun s => 4 / 7 + 8 * (s : ℚ) / 7) (fun _ => 10) 0 8
    (fun s => 4 + 4 / 7 + 8 * (s : ℚ) / 7) (fun _ => 10) 4 12 7 (fun _ => 0) (fun _ => 0)
    (by decide!) (by decide!) (by decide!)

/-- The fit of a histogram of uniform count over distinct bin centres is the constant. -/
theorem polyfit_uniform (xs : ℕ → ℚ) (v : ℚ) (n : ℕ) (coefficients : ℕ → ℚ) (hn : 5 < n)
    (hd : 6 ≤ (Finset.image xs (Finset.range n)).card) :
    polyfit xs (fun _ => v) n 5 coefficients
    = (0, fun i => if i < 6 then (if i = 0 then v else 0) else coefficients i) := by
  have h := polyfit_recovers_general (fun i => if i = 0 then v else 0) xs n 5 coefficients
    hn (by decide) hd
  have hy : (fun s => ∑ i in Finset.range (5 + 1), (if i = 0 then v else 0) * xs s ^ i)
      = fun _ => v := by
    funext s
    simp [Finset.sum_range_succ]
  rw [hy] at h
  exact h

/-- C9: for histogram A with bin centres `4/7 + 8i/7` (`i = 0..6`) of uniform count 10 over
`[0, 8]` and histogram B with bin centres `4 + 4/7 + 8i/7` of uniform count 10 over
`[4, 12]`, the join estimator with `countOfElements = 7` returns one determined value,
`1/4`, whatever the local buffers held before, and it lies strictly between `0.1` and `0.5`. -/
theorem join_end_to_end :
    (∀ ca cb : ℕ → ℚ,
      calculate_range_join_overlap_fraction (fun s => 4 / 7 + 8 * (s : ℚ) / 7) (fun _ => 10)
        0 8 (fun s => 4 + 4 / 7 + 8 * (s : ℚ) / 7) (fun _ => 10) 4 12 7 ca cb
      = some (1 / 4))
    ∧ ((1 : ℚ) / 10 < 1 / 4 ∧ (1 : ℚ) / 4 < 1 / 2) := by
  refine ⟨?_, by norm_num⟩
  intro ca cb
  have hinjA : Function.Injective (fun s : ℕ => 4 / 7 + 8 * (s : ℚ) / 7) := by
    intro a b h
    have h' : (a : ℚ) = b := by
      simp only [] at h
      linarith
    exact_mod_cast h'
  have hinjB : Function.Injective (fun s : ℕ => 4 + 4 / 7 + 8 * (s : ℚ) / 7) := by
    intro a b h
    have h' : (a : ℚ) = b := by
      simp only [] at h
      linarith
    exact_mod_cast h'
  have hfa := polyfit_uniform (fun s : ℕ => 4 / 7 + 8 * (s : ℚ) / 7) 10 7 ca (by decide)
    (by rw [Finset.card_image_of_injective _ hinjA]; simp)
  have hfb := polyfit_uniform (fun s : ℕ => 4 + 4 / 7 + 8 * (s : ℚ) / 7) 10 7 cb (by decide)
    (by rw [Finset.card_image_of_injective _ hinjB]; simp)
  have hconst : ∀ (c : ℕ → ℚ) (a b : ℚ),
      trapezoidal (fun i => if i < 6 then (if i = 0 then (10 : ℚ) else 0) else c i) 5 a b 100
      = some (10 * (b - a)) := by
    intro c a b
    apply trapezoidal_const_100 _ 5 10 a b (by decide) (by simp)
    intro i h1 h2
    have h3 : i < 6 := by omega
    have h4 : i ≠ 0 := by omega
    simp [h3, h4]
  have hmax : Max (4 : ℚ) 0 = 4 := by unfold Max; norm_num
  have hmin : Min (12 : ℚ) 8 = 8 := by unfold Min; norm_num
  rw [join_unfold _ _ _ _ _ _ _ _ _ _ _ (10 * (8 - 0)) (10 * (12 - 4))
    (by rw [hfa]; exact hconst ca 0 8) (by rw [hfb]; exact hconst cb 4 12)]
  rw [hmax, hmin, if_pos (by norm_num), hfa, hfb]
  simp only [hconst, Option.some_bind]
  norm_num [fdiv]

/-! ## The single-histogram estimators -/

/-- The body of the left-of estimator past its two shortcuts. -/
theorem left_of_unfold (xa ya : ℕ → ℚ) (min_a max_a : ℚ) (n : ℕ) (const_lower : ℚ)
    (ca : ℕ → ℚ) (total part : ℚ) (h1 : ¬ const_lower < min_a) (h2 : ¬ const_lower > max_a)
    (hT : trapezoidal (polyfit xa ya n 5 ca).2 5 min_a max_a 100 = some total)
    (hP : trapezoidal (polyfit xa ya n 5 ca).2 5 min_a const_lower 100 = some part) :
    calculate_range_left_of_fraction xa ya min_a max_a n const_lower ca = fdiv part total := by
  unfold calculate_range_left_of_fraction
  simp only [Nat.cast_ofNat]
  rw [if_neg h1, if_neg h2, hT, hP]
  rfl

/-- The body of the overlap estimator past its three shortcuts. -/
theorem overlap_unfold (xa ya : ℕ → ℚ) (min_a max_a : ℚ) (n : ℕ) (const_lower const_upper : ℚ)
    (ca : ℕ → ℚ) (total part : ℚ) (h1 : ¬ const_upper < min_a) (h2 : ¬ const_lower > max_a)
    (h3 : ¬ (const_lower < min_a ∧ const_upper > max_a))
    (hT : trapezoidal (polyfit xa ya n 5 ca).2 5 min_a max_a 100 = some total)
    (hP : trapezoidal (polyfit xa ya n 5 ca).2 5 (Max min_a const_lower) (Min max_a const_upper)
      100 = some part) :
    calculate_range_overlap_fraction xa ya min_a max_a n const_lower const_upper ca
    = fdiv part total := by
  unfold calculate_range_overlap_fraction
  simp only [Nat.cast_ofNat]
  rw [if_neg h1, if_neg h2, if_neg h3, hT, hP]
  rfl

theorem fdiv_zero_left (y : ℚ) (hy : y ≠ 0) : fdiv 0 y = some 0 := by
  simp [fdiv, hy]

theorem fdiv_self (y : ℚ) (hy : y ≠ 0) : fdiv y y = some 1 := by
  simp [fdiv, hy]

theorem fdiv_zero_right (x : ℚ) : fdiv x 0 = none := by
  simp [fdiv]

/-- The fit of an all-zero histogram over distinct bin centres integrates to zero. -/
theorem trapezoidal_zero_histogram (xs : ℕ → ℚ) (n : ℕ) (ca : ℕ → ℚ) (a b : ℚ) (hn : 5 < n)
    (hd : 6 ≤ (Finset.image xs (Finset.range n)).card) :
    trapezoidal (polyfit xs (fun _ => 0) n 5 ca).2 5 a b 100 = some 0 := by
  rw [polyfit_uniform xs 0 n ca hn hd]
  have := trapezoidal_const_100 (fun i => if i < 6 then (if i = 0 then (0 : ℚ) else 0) else ca i)
    5 0 a b (by decide) (by simp) (fun i h1 h2 => by
      have h3 : i < 6 := by omega
      simp [h3])
  simpa using this

theorem card_image_natCast (n : ℕ) :
    (Finset.image (fun s : ℕ => (s : ℚ)) (Finset.range n)).card = n := by
  rw [Finset.card_image_of_injective _ Nat.cast_injective, Finset.card_range]

/-- C11, as stated, fails: for the all-zero histogram on bin centres `0..6` over `[0, 8]`
the total integral is zero, and the left-of estimator divides by it at threshold `min_a` and
at threshold `max_a`: the result is not finite, neither `0` nor `1`. -/
theorem left_of_endpoints_counterexample :
    calculate_range_left_of_fraction (fun s => (s : ℚ)) (fun _ => 0) 0 8 7 0 (fun _ => 0)
      = none
    ∧ calculate_range_left_of_fraction (fun s => (s : ℚ)) (fun _ => 0) 0 8 7 8 (fun _ => 0)
      = none := by
  have hd : 6 ≤ (Finset.image (fun s : ℕ => (s : ℚ)) (Finset.range 7)).card := by
    rw [card_image_natCast]; decide
  have hz : ∀ a b : ℚ, trapezoidal
      (polyfit (fun s : ℕ => (s : ℚ)) (fun _ => 0) 7 5 (fun _ => 0)).2 5 a b 100 = some 0 :=
    fun a b => trapezoidal_zero_histogram _ 7 _ a b (by decide) hd
  constructor
  · rw [left_of_unfold _ _ 0 8 7 0 _ 0 0 (by norm_num) (by norm_num) (hz 0 8) (hz 0 0)]
    exact fdiv_zero_right 0
  · rw [left_of_unfold _ _ 0 8 7 8 _ 0 0 (by norm_num) (by norm_num) (hz 0 8) (hz 0 8)]
    exact fdiv_zero_right 0

/-- C11, amended: for every histogram and domain `[min_a, max_a]` (so `min_a ≤ max_a`)
whose total integral over the domain is not zero, the left-of estimator returns `0` at
threshold `min_a` and `1` at threshold `max_a`. -/
theorem left_of_endpoints (xa ya : ℕ → ℚ) (min_a max_a : ℚ) (n : ℕ) (ca : ℕ → ℚ) (total : ℚ)
    (hdom : min_a ≤ max_a)
    (hT : trapezoidal (polyfit xa ya n 5 ca).2 5 min_a max_a 100 = some total)
    (h0 : total ≠ 0) :
    calculate_range_left_of_fraction xa ya min_a max_a n min_a ca = some 0
    ∧ calculate_range_left_of_fraction xa ya min_a max_a n max_a ca = some 1 := by
  constructor
  · rw [left_of_unfold xa ya min_a max_a n min_a ca total 0 (lt_irrefl _) (not_lt.mpr hdom) hT
      (trapezoidal_same _ 5 min_a 100 (by norm_num))]
    exact fdiv_zero_left total h0
  · rw [left_of_unfold xa ya min_a max_a n max_a ca total total (not_lt.mpr hdom) (lt_irrefl _)
      hT hT]
    exact fdiv_self total h0

theorem left_of_endpoints_witness :
    calculate_range_left_of_fraction (fun s => (s : ℚ)) (fun _ => 10) 0 8 7 0 (fun _ => 0)
      = some 0
    ∧ calculate_range_left_of_fraction (fun s => (s : ℚ)) (fun _ => 10) 0 8 7 8 (fun _ => 0)
      = some 1 :=
  left_of_endpoints (fun s => (s : ℚ)) (fun _ => 10) 0 8 7 (fun _ => 0) 80 (by norm_num)
    (by decide!) (by norm_num)

/-- C13: for every histogram and domain `[min_a, max_a]` (so `min_a ≤ max_a`), the overlap
estimator returns exactly `0` when `const_upper < min_a`, exactly `0` when
`const_lower > max_a`, and exactly `1` when `const_lower < min_a` and `const_upper > max_a`;
otherwise it returns the trapezoidal integral of the fit over
`[max(min_a, const_lower), min(max_a, const_upper)]` divided by the integral over
`[min_a, max_a]`. -/
theorem overlap_cases (xa ya : ℕ → ℚ) (min_a max_a : ℚ) (n : ℕ) (const_lower const_upper : ℚ)
    (ca : ℕ → ℚ) :
    (const_upper < min_a →
      calculate_range_overlap_fraction xa ya min_a max_a n const_lower const_upper ca = some 0)
    ∧ (const_lower > max_a →
      calculate_range_overlap_fraction xa ya min_a max_a n const_lower const_upper ca = some 0)
    ∧ (min_a ≤ max_a → const_lower < min_a → const_upper > max_a →
      calculate_range_overlap_fraction xa ya min_a max_a n const_lower const_upper ca = some 1)
    ∧ (¬ const_upper < min_a → ¬ const_lower > max_a →
        ¬ (const_lower < min_a ∧ const_upper > max_a) →
      ∃ total part : ℚ,
        trapezoidal (polyfit xa ya n 5 ca).2 5 min_a max_a 100 = some total
        ∧ trapezoidal (polyfit xa ya n 5 ca).2 5 (Max min_a const_lower)
            (Min max_a const_upper) 100 = some part
        ∧ calculate_range_overlap_fraction xa ya min_a max_a n const_lower const_upper ca
            = fdiv part total
        ∧ (total ≠ 0 →
            calculate_range_overlap_fraction xa ya min_a max_a n const_lower const_upper ca
              = some (part / total))) := by
  refine ⟨?_, ?_, ?_, ?_⟩
  · intro h
    unfold calculate_range_overlap_fraction
    simp only []
    rw [if_pos h]
  · intro h
    unfold calculate_range_overlap_fraction
    simp only []
    by_cases h1 : const_upper < min_a
    · rw [if_pos h1]
    · rw [if_neg h1, if_pos h]
  · intro hdom hl hu
    have h1 : ¬ const_upper < min_a := not_lt.mpr (le_trans hdom (le_of_lt hu))
    have h2 : ¬ const_lower > max_a := not_lt.mpr (le_trans (le_of_lt hl) hdom)
    unfold calculate_range_overlap_fraction
    simp only []
    rw [if_neg h1, if_neg h2, if_pos ⟨hl, hu⟩]
  · intro h1 h2 h3
    obtain ⟨total, hT⟩ := trapezoidal_100 (polyfit xa ya n 5 ca).2 5 min_a max_a
    obtain ⟨part, hP⟩ := trapezoidal_100 (polyfit xa ya n 5 ca).2 5
      (Max min_a const_lower) (Min max_a const_upper)
    have hres := overlap_unfold xa ya min_a max_a n const_lower const_upper ca total part
      h1 h2 h3 hT hP
    refine ⟨total, part, hT, hP, hres, ?_⟩
    intro h0
    rw [hres]
    simp [fdiv, h0]

theorem overlap_cases_witness :
    calculate_range_overlap_fraction (fun s => (s : ℚ)) (fun _ => 10) 0 8 7 (-3) (-1)
      (fun _ => 0) = some 0
    ∧ calculate_range_overlap_fraction (fun s => (s : ℚ)) (fun _ => 10) 0 8 7 9 11
      (fun _ => 0) = some 0
    ∧ calculate_range_overlap_fraction (fun s => (s : ℚ)) (fun _ => 10) 0 8 7 (-1) 9
      (fun _ => 0) = some 1
    ∧ ∃ total part : ℚ,
        trapezoidal (polyfit (fun s => (s : ℚ)) (fun _ => 10) 7 5 (fun _ => 0)).2 5 0 8 100
          = some total
        ∧ trapezoidal (polyfit (fun s => (s : ℚ)) (fun _ => 10) 7 5 (fun _ => 0)).2 5
            (Max 0 2) (Min 8 4) 100 = some part
        ∧ calculate_range_overlap_fraction (fun s => (s : ℚ)) (fun _ => 10) 0 8 7 2 4
            (fun _ => 0) = fdiv part total
        ∧ (total ≠ 0 →
            calculate_range_overlap_fraction (fun s => (s : ℚ)) (fun _ => 10) 0 8 7 2 4
              (fun _ => 0) = some (part / total)) :=
  ⟨(overlap_cases _ _ 0 8 7 (-3) (-1) _).1 (by norm_num),
   (overlap_cases _ _ 0 8 7 9 11 _).2.1 (by norm_num),
   (overlap_cases _ _ 0 8 7 (-1) 9 _).2.2.1 (by norm_num) (by norm_num) (by norm_num),
   (overlap_cases _ _ 0 8 7 2 4 _).2.2.2 (by norm_num) (by norm_num) (by norm_num)⟩

theorem Max_eq_right_of_le (x y : ℚ) (h : x ≤ y) : Max x y = y := by
  rw [Max_eq_max, max_eq_right h]

theorem Max_eq_left_of_le (x y : ℚ) (h : y ≤ x) : Max x y = x := by
  rw [Max_eq_max, max_eq_left h]

theorem Min_eq_right_of_le (x y : ℚ) (h : y ≤ x) : Min x y = y := by
  rw [Min_eq_min, min_eq_right h]

/-- C14, as stated, fails: for the all-zero histogram on bin centres `0..6` over `[0, 8]`
the total integral is zero, and the overlap estimator with `const_lower = const_upper = 4`
divides by it: the result is not finite. -/
theorem overlap_point_counterexample :
    calculate_range_overlap_fraction (fun s => (s : ℚ)) (fun _ => 0) 0 8 7 4 4 (fun _ => 0)
      = none := by
  have hd : 6 ≤ (Finset.image (fun s : ℕ => (s : ℚ)) (Finset.range 7)).card := by
    rw [card_image_natCast]; decide
  have hz : ∀ a b : ℚ, trapezoidal
      (polyfit (fun s : ℕ => (s : ℚ)) (fun _ => 0) 7 5 (fun _ => 0)).2 5 a b 100 = some 0 :=
    fun a b => trapezoidal_zero_histogram _ 7 _ a b (by decide) hd
  rw [overlap_unfold _ _ 0 8 7 4 4 _ 0 0 (by norm_num) (by norm_num) (by norm_num) (hz 0 8)
    (hz _ _)]
  exact fdiv_zero_right 0

/-- C14, amended: for every histogram, every domain `[min_a, max_a]` whose total integral is
not zero and every `c` with `min_a ≤ c ≤ max_a`, the overlap estimator with
`const_lower = const_upper = c` returns `0`. -/
theorem overlap_point (xa ya : ℕ → ℚ) (min_a max_a : ℚ) (n : ℕ) (c : ℚ) (ca : ℕ → ℚ)
    (total : ℚ) (h1 : min_a ≤ c) (h2 : c ≤ max_a)
    (hT : trapezoidal (polyfit xa ya n 5 ca).2 5 min_a max_a 100 = some total)
    (h0 : total ≠ 0) :
    calculate_range_overlap_fraction xa ya min_a max_a n c c ca = some 0 := by
  have hP : trapezoidal (polyfit xa ya n 5 ca).2 5 (Max min_a c) (Min max_a c) 100 = some 0 := by
    rw [Max_eq_right_of_le _ _ h1, Min_eq_right_of_le _ _ h2]
    exact trapezoidal_same _ 5 c 100 (by norm_num)
  rw [overlap_unfold xa ya min_a max_a n c c ca total 0 (not_lt.mpr h1) (not_lt.mpr h2)
    (fun h => absurd h.1 (not_lt.mpr h1)) hT hP]
  exact fdiv_zero_left total h0

theorem overlap_point_witness :
    calculate_range_overlap_fraction (fun s => (s : ℚ)) (fun _ => 10) 0 8 7 4 4 (fun _ => 0)
      = some 0 :=
  overlap_point (fun s => (s : ℚ)) (fun _ => 10) 0 8 7 4 (fun _ => 0) 80 (by norm_num)
    (by norm_num) (by decide!) (by norm_num)

/-- A failed `polyfit` returns `-1` and the buffer it was given. -/
theorem polyfit_failure_eq (xs ys : ℕ → ℚ) (n order : ℕ) (coefficients : ℕ → ℚ)
    (h : (polyfit xs ys n order coefficients).1 ≠ 0) :
    (polyfit xs ys n order coefficients).1 = -1
    ∧ (polyfit xs ys n order coefficients).2 = coefficients := by
  cases hA : invertLeft order (initMatrix (powerSums xs n order) order) with
  | none =>
    rw [polyfit_of_invertLeft_none xs ys n order coefficients hA]
    exact ⟨rfl, rfl⟩
  | some A =>
    by_cases h1 : n ≤ order
    · unfold polyfit
      rw [if_pos h1]
      exact ⟨rfl, rfl⟩
    · by_cases h2 : order > maxOrder
      · unfold polyfit
        rw [if_neg h1, if_pos h2]
        exact ⟨rfl, rfl⟩
      · rw [polyfit_of_invertLeft_some xs ys n order coefficients A (by omega) (by omega) hA]
          at h
        exact absurd rfl h

/-- C18: whenever `polyfit` returns failure (any of its three `-1` exits), the
`coefficients` buffer holds the same values after the call as before it. -/
theorem polyfit_failure_frame (xs ys : ℕ → ℚ) (n order : ℕ) (coefficients : ℕ → ℚ)
    (h : (polyfit xs ys n order coefficients).1 ≠ 0) :
    (polyfit xs ys n order coefficients).1 = -1
    ∧ ∀ i, (polyfit xs ys n order coefficients).2 i = coefficients i := by
  obtain ⟨h1, h2⟩ := polyfit_failure_eq xs ys n order coefficients h
  exact ⟨h1, fun i => by rw [h2]⟩

theorem polyfit_failure_frame_witness :
    (polyfit (fun _ => 2) (fun _ => 1) 7 5 (fun i : ℕ => (i : ℚ) + 1)).1 = -1
    ∧ ∀ i, (polyfit (fun _ => 2) (fun _ => 1) 7 5 (fun i : ℕ => (i : ℚ) + 1)).2 i
        = (i : ℚ) + 1 :=
  polyfit_failure_frame (fun _ => 2) (fun _ => 1) 7 5 (fun i : ℕ => (i : ℚ) + 1) (by decide!)

/-- C20: for every histogram, domain `[min_a, max_a]` with `min_a ≤ max_a`, threshold `t`
with `min_a ≤ t ≤ max_a` and `const_lower ≤ min_a`, the overlap estimator at
`(const_lower, t)` equals the left-of estimator at `t`. -/
theorem overlap_eq_left_of (xa ya : ℕ → ℚ) (min_a max_a : ℚ) (n : ℕ) (const_lower t : ℚ)
    (ca : ℕ → ℚ) (_hdom : min_a ≤ max_a) (h1 : min_a ≤ t) (h2 : t ≤ max_a)
    (h3 : const_lower ≤ min_a) :
    calculate_range_overlap_fraction xa ya min_a max_a n const_lower t ca
    = calculate_range_left_of_fraction xa ya min_a max_a n t ca := by
  obtain ⟨total, hT⟩ := trapezoidal_100 (polyfit xa ya n 5 ca).2 5 min_a max_a
  obtain ⟨part, hP⟩ := trapezoidal_100 (polyfit xa ya n 5 ca).2 5 min_a t
  have hP' : trapezoidal (polyfit xa ya n 5 ca).2 5 (Max min_a const_lower) (Min max_a t) 100
      = some part := by
    rw [Max_eq_left_of_le _ _ h3, Min_eq_right_of_le _ _ h2]
    exact hP
  rw [overlap_unfold xa ya min_a max_a n const_lower t ca total part (not_lt.mpr h1)
      (not_lt.mpr (le_trans h3 (le_trans h1 h2))) (fun h => absurd h.2 (not_lt.mpr h2)) hT hP',
    left_of_unfold xa ya min_a max_a n t ca total part (not_lt.mpr h1) (not_lt.mpr h2) hT hP]

theorem overlap_eq_left_of_witness :
    calculate_range_overlap_fraction (fun s => (s : ℚ)) (fun _ => 10) 0 8 7 (-1) 4 (fun _ => 0)
    = calculate_range_left_of_fraction (fun s => (s : ℚ)) (fun _ => 10) 0 8 7 4 (fun _ => 0) :=
  overlap_eq_left_of _ _ 0 8 7 (-1) 4 _ (by norm_num) (by norm_num) (by norm_num) (by norm_num)

/-- C15, as stated, fails: with three samples every order-5 fit fails, and each estimator
then returns a value that changes with the prior content of its coefficient buffer (here a
buffer holding the polynomial `1` against one holding the polynomial `x`). -/
theorem failed_fit_fallback_counterexample :
    (polyfit (fun s => (s : ℚ)) (fun _ => 10) 3 5 (fun i => if i = 0 then 1 else 0)).1 = -1
    ∧ calculate_range_left_of_fraction (fun s => (s : ℚ)) (fun _ => 10) 0 8 3 4
        (fun i => if i = 0 then 1 else 0) = some (1 / 2)
    ∧ calculate_range_left_of_fraction (fun s => (s : ℚ)) (fun _ => 10) 0 8 3 4
        (fun i => if i = 1 then 1 else 0) = some (1 / 4)
    ∧ calculate_range_overlap_fraction (fun s => (s : ℚ)) (fun _ => 10) 0 8 3 2 4
        (fun i => if i = 0 then 1 else 0) = some (1 / 4)
    ∧ calculate_range_overlap_fraction (fun s => (s : ℚ)) (fun _ => 10) 0 8 3 2 4
        (fun i => if i = 1 then 1 else 0) = some (3 / 16)
    ∧ calculate_range_join_overlap_fraction (fun s => (s : ℚ)) (fun _ => 10) 0 8
        (fun s => (s : ℚ) + 4) (fun _ => 10) 4 12 3
        (fun i => if i = 0 then 1 else 0) (fun i => if i = 0 then 1 else 0) = some (1 / 4)
    ∧ calculate_range_join_overlap_fraction (fun s => (s : ℚ)) (fun _ => 10) 0 8
        (fun s => (s : ℚ) + 4) (fun _ => 10) 4 12 3
        (fun i => if i = 1 then 1 else 0) (fun i => if i = 0 then 1 else 0) = some (3 / 8) := by
  refine ⟨by decide!, by decide!, by decide!, by decide!, by decide!, by decide!, by decide!⟩

/-- C15, amended: whenever `polyfit` fails inside an estimator, the estimator goes on with
the prior content of its local coefficient buffer: the value returned does not depend on the
sample values, but it is computed from that prior content and is not a fixed fallback. -/
theorem failed_fit_uses_prior_buffer (xa ya xa' ya' xb yb xb' yb' : ℕ → ℚ) (n n' : ℕ)
    (min_a max_a min_b max_b const_lower const_upper : ℚ) (ca cb : ℕ → ℚ)
    (ha : (polyfit xa ya n 5 ca).1 ≠ 0) (ha' : (polyfit xa' ya' n' 5 ca).1 ≠ 0)
    (hb : (polyfit xb yb n 5 cb).1 ≠ 0) (hb' : (polyfit xb' yb' n' 5 cb).1 ≠ 0) :
    calculate_range_left_of_fraction xa ya min_a max_a n const_lower ca
      = calculate_range_left_of_fraction xa' ya' min_a max_a n' const_lower ca
    ∧ calculate_range_overlap_fraction xa ya min_a max_a n const_lower const_upper ca
      = calculate_range_overlap_fraction xa' ya' min_a max_a n' const_lower const_upper ca
    ∧ calculate_range_join_overlap_fraction xa ya min_a max_a xb yb min_b max_b n ca cb
      = calculate_range_join_overlap_fraction xa' ya' min_a max_a xb' yb' min_b max_b n' ca cb := by
  have e1 := (polyfit_failure_eq xa ya n 5 ca ha).2
  have e2 := (polyfit_failure_eq xa' ya' n' 5 ca ha').2
  have e3 := (polyfit_failure_eq xb yb n 5 cb hb).2
  have e4 := (polyfit_failure_eq xb' yb' n' 5 cb hb').2
  refine ⟨?_, ?_, ?_⟩
  · unfold calculate_range_left_of_fraction
    simp only [e1, e2]
  · unfold calculate_range_overlap_fraction
    simp only [e1, e2]
  · unfold calculate_range_join_overlap_fraction
    simp only [e1, e2, e3, e4]

theorem failed_fit_uses_prior_buffer_witness :
    calculate_range_left_of_fraction (fun s => (s : ℚ)) (fun _ => 10) 0 8 3 4 (fun _ => 1)
      = calculate_range_left_of_fraction (fun _ => 2) (fun s => (s : ℚ)) 0 8 7 4 (fun _ => 1)
    ∧ calculate_range_overlap_fraction (fun s => (s : ℚ)) (fun _ => 10) 0 8 3 4 6 (fun _ => 1)
      = calculate_range_overlap_fraction (fun _ => 2) (fun s => (s : ℚ)) 0 8 7 4 6 (fun _ => 1)
    ∧ calculate_range_join_overlap_fraction (fun s => (s : ℚ)) (fun _ => 10) 0 8
        (fun s => (s : ℚ) + 4) (fun _ => 10) 4 12 3 (fun _ => 1) (fun _ => 1)
      = calculate_range_join_overlap_fraction (fun _ => 2) (fun s => (s : ℚ)) 0 8
        (fun _ => 5) (fun _ => 1) 4 12 7 (fun _ => 1) (fun _ => 1) :=
  failed_fit_uses_prior_buffer (fun s => (s : ℚ)) (fun _ => 10) (fun _ => 2) (fun s => (s : ℚ))
    (fun s => (s : ℚ) + 4) (fun _ => 10) (fun _ => 5) (fun _ => 1) 3 7 0 8 4 12 4 6
    (fun _ => 1) (fun _ => 1) (by decide!) (by decide!) (by decide!) (by decide!)

theorem card_image_natCast_add (n : ℕ) (d : ℚ) :
    (Finset.image (fun s : ℕ => (s : ℚ) + d) (Finset.range n)).card = n := by
  have hinj : Function.Injective (fun s : ℕ => (s : ℚ) + d) := by
    intro a b h
    have h' : (a : ℚ) = b := by
      simp only [] at h
      linarith
    exact_mod_cast h'
  rw [Finset.card_image_of_injective _ hinj, Finset.card_range]

/-- C16, as stated, fails: for all-zero histograms on seven distinct bin centres every fit
succeeds with the zero polynomial, every total integral is zero, and each of the three
estimators divides by it: the result is not finite and no fallback is substituted. -/
theorem unguarded_division_counterexample :
    calculate_range_join_overlap_fraction (fun s => (s : ℚ)) (fun _ => 0) 0 8
      (fun s => (s : ℚ) + 4) (fun _ => 0) 4 12 7 (fun _ => 0) (fun _ => 0) = none
    ∧ calculate_range_left_of_fraction (fun s => (s : ℚ)) (fun _ => 0) 0 8 7 4 (fun _ => 0)
      = none
    ∧ calculate_range_overlap_fraction (fun s => (s : ℚ)) (fun _ => 0) 0 8 7 2 4 (fun _ => 0)
      = none := by
  have hd : 6 ≤ (Finset.image (fun s : ℕ => (s : ℚ)) (Finset.range 7)).card := by
    rw [card_image_natCast]; decide
  have hd' : 6 ≤ (Finset.image (fun s : ℕ => (s : ℚ) + 4) (Finset.range 7)).card := by
    rw [card_image_natCast_add]; decide
  have hz : ∀ a b : ℚ, trapezoidal
      (polyfit (fun s : ℕ => (s : ℚ)) (fun _ => 0) 7 5 (fun _ => 0)).2 5 a b 100 = some 0 :=
    fun a b => trapezoidal_zero_histogram _ 7 _ a b (by decide) hd
  have hz' : ∀ a b : ℚ, trapezoidal
      (polyfit (fun s : ℕ => (s : ℚ) + 4) (fun _ => 0) 7 5 (fun _ => 0)).2 5 a b 100
      = some 0 :=
    fun a b => trapezoidal_zero_histogram _ 7 _ a b (by decide) hd'
  refine ⟨?_, ?_, ?_⟩
  · rw [join_unfold _ _ 0 8 _ _ 4 12 7 _ _ 0 0 (hz 0 8) (hz' 4 12),
      if_pos (by unfold Max Min; norm_num), hz, hz']
    simp [fdiv]
  · rw [left_of_unfold _ _ 0 8 7 4 _ 0 0 (by norm_num) (by norm_num) (hz 0 8) (hz 0 4)]
    exact fdiv_zero_right 0
  · rw [overlap_unfold _ _ 0 8 7 2 4 _ 0 0 (by norm_num) (by norm_num) (by norm_num) (hz 0 8)
      (hz _ _)]
    exact fdiv_zero_right 0

/-- C16, amended: in none of the three estimators is the division by the total integral
guarded: for every input whose total integral over the domain is zero and that reaches the
division (overlapping domains for the join, no shortcut taken for the other two), the
estimator divides by zero and returns a non-finite value, not a fallback fraction. -/
theorem division_by_zero_total (xa ya xb yb : ℕ → ℚ) (n : ℕ)
    (min_a max_a min_b max_b const_lower const_upper : ℚ) (ca cb : ℕ → ℚ) :
    (Max min_b min_a < Min max_b max_a →
      (trapezoidal (polyfit xa ya n 5 ca).2 5 min_a max_a 100 = some 0
        ∨ trapezoidal (polyfit xb yb n 5 cb).2 5 min_b max_b 100 = some 0) →
      calculate_range_join_overlap_fraction xa ya min_a max_a xb yb min_b max_b n ca cb = none)
    ∧ (¬ const_lower < min_a → ¬ const_lower > max_a →
      trapezoidal (polyfit xa ya n 5 ca).2 5 min_a max_a 100 = some 0 →
      calculate_range_left_of_fraction xa ya min_a max_a n const_lower ca = none)
    ∧ (¬ const_upper < min_a → ¬ const_lower > max_a →
      ¬ (const_lower < min_a ∧ const_upper > max_a) →
      trapezoidal (polyfit xa ya n 5 ca).2 5 min_a max_a 100 = some 0 →
      calculate_range_overlap_fraction xa ya min_a max_a n const_lower const_upper ca = none) := by
  refine ⟨?_, ?_, ?_⟩
  · intro hov hz
    obtain ⟨totalA, hA⟩ := trapezoidal_100 (polyfit xa ya n 5 ca).2 5 min_a max_a
    obtain ⟨totalB, hB⟩ := trapezoidal_100 (polyfit xb yb n 5 cb).2 5 min_b max_b
    obtain ⟨pA, hpA⟩ := trapezoidal_100 (polyfit xa ya n 5 ca).2 5
      (Max min_b min_a) (Min max_b max_a)
    obtain ⟨pB, hpB⟩ := trapezoidal_100 (polyfit xb yb n 5 cb).2 5
      (Max min_b min_a) (Min max_b max_a)
    rw [join_unfold xa ya min_a max_a xb yb min_b max_b n ca cb totalA totalB hA hB,
      if_pos hov, hpA, hpB]
    simp only [Option.some_bind]
    rcases hz with hz | hz
    · rw [hA] at hz
      injection hz with hz
      subst hz
      rw [fdiv_zero_right]
      rfl
    · rw [hB] at hz
      injection hz with hz
      subst hz
      rw [fdiv_zero_right]
      cases fdiv pA totalA <;> rfl
  · intro h1 h2 hz
    obtain ⟨p, hp⟩ := trapezoidal_100 (polyfit xa ya n 5 ca).2 5 min_a const_lower
    rw [left_of_unfold xa ya min_a max_a n const_lower ca 0 p h1 h2 hz hp]
    exact fdiv_zero_right p
  · intro h1 h2 h3 hz
    obtain ⟨p, hp⟩ := trapezoidal_100 (polyfit xa ya n 5 ca).2 5
      (Max min_a const_lower) (Min max_a const_upper)
    rw [overlap_unfold xa ya min_a max_a n const_lower const_upper ca 0 p h1 h2 h3 hz hp]
    exact fdiv_zero_right p

theorem division_by_zero_total_witness :
    calculate_range_join_overlap_fraction (fun s => (s : ℚ)) (fun _ => 10) 0 8
      (fun s => (s : ℚ) + 4) (fun _ => 10) 4 12 3 (fun _ => 0) (fun _ => 1) = none
    ∧ calculate_range_left_of_fraction (fun s => (s : ℚ)) (fun _ => 10) 0 8 3 4 (fun _ => 0)
      = none
    ∧ calculate_range_overlap_fraction (fun s => (s : ℚ)) (fun _ => 10) 0 8 3 2 4 (fun _ => 0)
      = none :=
  have h := division_by_zero_total (fun s => (s : ℚ)) (fun _ => 10) (fun s => (s : ℚ) + 4)
    (fun _ => 10) 3 0 8 4 12 2 4 (fun _ => 0) (fun _ => 1)
  have h' := division_by_zero_total (fun s => (s : ℚ)) (fun _ => 10) (fun s => (s : ℚ) + 4)
    (fun _ => 10) 3 0 8 4 12 4 4 (fun _ => 0) (fun _ => 1)
  have hz : trapezoidal (polyfit (fun s => (s : ℚ)) (fun _ => 10) 3 5 (fun _ => 0)).2 5 0 8 100
      = some 0 := by decide!
  ⟨h.1 (by decide!) (Or.inl hz), h'.2.1 (by norm_num) (by norm_num) hz,
   h.2.2 (by norm_num) (by norm_num) (by norm_num) hz⟩

/-- A successful fit overwrites the cells `0 … order`, so what the buffer held before does
not show in them. -/
theorem polyfit_success_indep (xs ys : ℕ → ℚ) (n order : ℕ) (c c' : ℕ → ℚ)
    (h : (polyfit xs ys n order c).1 = 0) (i : ℕ) (hi : i < order + 1) :
    (polyfit xs ys n order c').2 i = (polyfit xs ys n order c).2 i := by
  obtain ⟨hn, ho, A, hA⟩ := polyfit_status_zero xs ys n order c h
  rw [polyfit_of_invertLeft_some xs ys n order c A hn ho hA,
    polyfit_of_invertLeft_some xs ys n order c' A hn ho hA]
  simp only [if_pos hi]

theorem trapezoidal_fit_indep (xs ys : ℕ → ℚ) (n : ℕ) (c c' : ℕ → ℚ)
    (h : (polyfit xs ys n 5 c).1 = 0) (a b : ℚ) :
    trapezoidal (polyfit xs ys n 5 c').2 5 a b 100
    = trapezoidal (polyfit xs ys n 5 c).2 5 a b 100 := by
  apply trapezoidal_congr
  intro i hi
  exact polyfit_success_indep xs ys n 5 c c' h i (by omega)

/-- C19: the join estimator is symmetric in its two sides: for all inputs with both fits
succeeding, swapping `(xa, ya, min_a, max_a)` with `(xb, yb, min_b, max_b)` yields the same
result, whatever the local buffers held before either call. -/
theorem join_symmetric (xa ya : ℕ → ℚ) (min_a max_a : ℚ) (xb yb : ℕ → ℚ) (min_b max_b : ℚ)
    (n : ℕ) (ca cb ca' cb' : ℕ → ℚ)
    (ha : (polyfit xa ya n 5 ca).1 = 0) (hb : (polyfit xb yb n 5 cb).1 = 0) :
    calculate_range_join_overlap_fraction xa ya min_a max_a xb yb min_b max_b n ca cb
    = calculate_range_join_overlap_fraction xb yb min_b max_b xa ya min_a max_a n ca' cb' := by
  obtain ⟨tA, hA⟩ := trapezoidal_100 (polyfit xa ya n 5 ca).2 5 min_a max_a
  obtain ⟨tB, hB⟩ := trapezoidal_100 (polyfit xb yb n 5 cb).2 5 min_b max_b
  obtain ⟨pA, hpA⟩ := trapezoidal_100 (polyfit xa ya n 5 ca).2 5
    (Max min_b min_a) (Min max_b max_a)
  obtain ⟨pB, hpB⟩ := trapezoidal_100 (polyfit xb yb n 5 cb).2 5
    (Max min_b min_a) (Min max_b max_a)
  have hA' := (trapezoidal_fit_indep xa ya n ca cb' ha min_a max_a).trans hA
  have hB' := (trapezoidal_fit_indep xb yb n cb ca' hb min_b max_b).trans hB
  have hpA' := (trapezoidal_fit_indep xa ya n ca cb' ha _ _).trans hpA
  have hpB' := (trapezoidal_fit_indep xb yb n cb ca' hb _ _).trans hpB
  rw [join_unfold xa ya min_a max_a xb yb min_b max_b n ca cb tA tB hA hB,
    join_unfold xb yb min_b max_b xa ya min_a max_a n ca' cb' tB tA hB' hA',
    Max_comm min_a min_b, Min_comm max_a max_b, hpA, hpB, hpA', hpB']
  by_cases hov : Max min_b min_a < Min max_b max_a
  · rw [if_pos hov, if_pos hov]
    simp only [Option.some_bind]
    cases fdiv pA tA <;> cases fdiv pB tB <;> simp [mul_comm]
  · rw [if_neg hov, if_neg hov]

theorem join_symmetric_witness :
    calculate_range_join_overlap_fraction (fun s => 4 / 7 + 8 * (s : ℚ) / 7) (fun _ => 10)
      0 8 (fun s => 4 + 4 / 7 + 8 * (s : ℚ) / 7) (fun s => (s : ℚ) + 1) 4 12 7
      (fun _ => 0) (fun _ => 0)
    = calculate_range_join_overlap_fraction (fun s => 4 + 4 / 7 + 8 * (s : ℚ) / 7)
      (fun s => (s : ℚ) + 1) 4 12 (fun s => 4 / 7 + 8 * (s : ℚ) / 7) (fun _ => 10) 0 8 7
      (fun _ => 3) (fun _ => 2) :=
  join_symmetric (fun s => 4 / 7 + 8 * (s : ℚ) / 7) (fun _ => 10) 0 8
    (fun s => 4 + 4 / 7 + 8 * (s : ℚ) / 7) (fun s => (s : ℚ) + 1) 4 12 7
    (fun _ => 0) (fun _ => 0) (fun _ => 3) (fun _ => 2) (by decide!) (by decide!)

/-! ## Monotonicity of the left-of estimator -/

theorem trapezoidal_100_eq (c : ℕ → ℚ) (order : ℤ) (a b : ℚ) :
    trapezoidal c order a b 100 = some (trapezoid100 (fun x => function_poly c x order) a b) := by
  rw [trapezoidal_of_ne_zero c order a b 100 (by norm_num), forUpTo_sum]
  have hc : (⌈(100 : ℚ)⌉ - 1).toNat = 99 := by
    have : ⌈(100 : ℚ)⌉ = 100 := by simp
    rw [this]
    rfl
  rw [hc]
  unfold trapezoid100
  congr 1
  ring

theorem trapezoid100_same (f : ℚ → ℚ) (a : ℚ) : trapezoid100 f a a = 0 := by
  simp [trapezoid100]

/-- The nodes of the rule on `[a, t]` lie in `[a, t]`. -/
theorem node_mem (a t : ℚ) (k : ℕ) (hk : k < 99) (hat : a ≤ t) :
    a ≤ a + ((k + 1 : ℕ) : ℚ) * ((t - a) / 100)
    ∧ a + ((k + 1 : ℕ) : ℚ) * ((t - a) / 100) ≤ t := by
  have h0 : (0 : ℚ) ≤ ((k + 1 : ℕ) : ℚ) := Nat.cast_nonneg _
  have h1 : ((k + 1 : ℕ) : ℚ) ≤ 100 := by
    have : k + 1 ≤ 100 := by omega
    exact_mod_cast this
  have h2 : 0 ≤ t - a := sub_nonneg.mpr hat
  constructor
  · have : 0 ≤ ((k + 1 : ℕ) : ℚ) * ((t - a) / 100) := mul_nonneg h0 (by linarith)
    linarith
  · have : ((k + 1 : ℕ) : ℚ) * ((t - a) / 100) ≤ 100 * ((t - a) / 100) :=
      mul_le_mul_of_nonneg_right h1 (by linarith)
    linarith

theorem node_mono (a t1 t2 : ℚ) (k : ℕ) (h : t1 ≤ t2) :
    a + ((k + 1 : ℕ) : ℚ) * ((t1 - a) / 100) ≤ a + ((k + 1 : ℕ) : ℚ) * ((t2 - a) / 100) := by
  have h0 : (0 : ℚ) ≤ ((k + 1 : ℕ) : ℚ) := Nat.cast_nonneg _
  have : ((k + 1 : ℕ) : ℚ) * ((t1 - a) / 100) ≤ ((k + 1 : ℕ) : ℚ) * ((t2 - a) / 100) :=
    mul_le_mul_of_nonneg_left (by linarith) h0
  linarith

theorem trapezoid100_nonneg (f : ℚ → ℚ) (a M t : ℚ) (hat : a ≤ t) (htM : t ≤ M)
    (hnn : ∀ x, a ≤ x → x ≤ M → 0 ≤ f x) : 0 ≤ trapezoid100 f a t := by
  unfold trapezoid100
  apply mul_nonneg
  · linarith
  · have h1 := hnn a le_rfl (le_trans hat htM)
    have h2 := hnn t hat htM
    have h3 : 0 ≤ ∑ k in Finset.range 99, 2 * f (a + ((k + 1 : ℕ) : ℚ) * ((t - a) / 100)) := by
      apply Finset.sum_nonneg
      intro k hk
      obtain ⟨n1, n2⟩ := node_mem a t k (Finset.mem_range.mp hk) hat
      have := hnn _ n1 (le_trans n2 htM)
      linarith
    linarith

theorem trapezoid100_mono (f : ℚ → ℚ) (a M t1 t2 : ℚ) (h1 : a ≤ t1) (h12 : t1 ≤ t2)
    (h2 : t2 ≤ M) (hnn : ∀ x, a ≤ x → x ≤ M → 0 ≤ f x)
    (hmono : ∀ x y, a ≤ x → x ≤ y → y ≤ M → f x ≤ f y) :
    trapezoid100 f a t1 ≤ trapezoid100 f a t2 := by
  unfold trapezoid100
  have hS : f a + f t1
        + ∑ k in Finset.range 99, 2 * f (a + ((k + 1 : ℕ) : ℚ) * ((t1 - a) / 100))
      ≤ f a + f t2
        + ∑ k in Finset.range 99, 2 * f (a + ((k + 1 : ℕ) : ℚ) * ((t2 - a) / 100)) := by
    have e1 := hmono t1 t2 h1 h12 h2
    have e2 : ∑ k in Finset.range 99, 2 * f (a + ((k + 1 : ℕ) : ℚ) * ((t1 - a) / 100))
        ≤ ∑ k in Finset.range 99, 2 * f (a + ((k + 1 : ℕ) : ℚ) * ((t2 - a) / 100)) := by
      apply Finset.sum_le_sum
      intro k hk
      obtain ⟨n1, _⟩ := node_mem a t1 k (Finset.mem_range.mp hk) h1
      obtain ⟨_, n2⟩ := node_mem a t2 k (Finset.mem_range.mp hk) (le_trans h1 h12)
      have := hmono _ _ n1 (node_mono a t1 t2 k h12) (le_trans n2 h2)
      linarith
    linarith
  have hS0 : 0 ≤ f a + f t1
      + ∑ k in Finset.range 99, 2 * f (a + ((k + 1 : ℕ) : ℚ) * ((t1 - a) / 100)) := by
    have e1 := hnn a le_rfl (le_trans h1 (le_trans h12 h2))
    have e2 := hnn t1 h1 (le_trans h12 h2)
    have e3 : 0 ≤ ∑ k in Finset.range 99,
        2 * f (a + ((k + 1 : ℕ) : ℚ) * ((t1 - a) / 100)) := by
      apply Finset.sum_nonneg
      intro k hk
      obtain ⟨n1, n2⟩ := node_mem a t1 k (Finset.mem_range.mp hk) h1
      have := hnn _ n1 (le_trans n2 (le_trans h12 h2))
      linarith
    linarith
  exact mul_le_mul (by linarith) hS hS0 (by linarith)

/-- C12, as stated, fails: the histogram with the non-negative counts `16 s² - 16 s + 3` on
bin centres `s = 0..6` over `[0, 6]` is fitted by a polynomial that is negative between
`1/4` and `3/4`, and the left-of fraction at `1/4` is larger than the one at `3/4`. -/
theorem left_of_monotone_counterexample :
    (∀ s : ℕ, (0 : ℚ) ≤ 16 * (s : ℚ) ^ 2 - 16 * (s : ℚ) + 3)
    ∧ calculate_range_left_of_fraction (fun s => (s : ℚ))
        (fun s => 16 * (s : ℚ) ^ 2 - 16 * (s : ℚ) + 3) 0 6 7 (1 / 4) (fun _ => 0)
        = some (2963 / 7840512)
    ∧ calculate_range_left_of_fraction (fun s => (s : ℚ))
        (fun s => 16 * (s : ℚ) ^ 2 - 16 * (s : ℚ) + 3) 0 6 7 (3 / 4) (fun _ => 0)
        = some (1 / 7840512)
    ∧ ((1 : ℚ) / 4 ≤ 3 / 4 ∧ (1 : ℚ) / 7840512 < 2963 / 7840512) := by
  refine ⟨?_, by decide!, by decide!, by norm_num, by norm_num⟩
  intro s
  rcases Nat.eq_zero_or_pos s with h | h
  · subst h; norm_num
  · have h1 : (1 : ℚ) ≤ s := by exact_mod_cast h
    nlinarith

/-- C12, amended: for every histogram and domain `[min_a, max_a]` whose fitted polynomial
is non-negative and non-decreasing on the domain and whose total integral is not zero, the
left-of estimator is monotonically non-decreasing in the threshold: for all thresholds
`t1 ≤ t2` the fraction at `t1` is at most the fraction at `t2`. -/
theorem left_of_monotone (xa ya : ℕ → ℚ) (min_a max_a : ℚ) (n : ℕ) (ca : ℕ → ℚ)
    (t1 t2 total : ℚ) (hdom : min_a ≤ max_a)
    (hnn : ∀ x, min_a ≤ x → x ≤ max_a → 0 ≤ function_poly (polyfit xa ya n 5 ca).2 x 5)
    (hmono : ∀ x y, min_a ≤ x → x ≤ y → y ≤ max_a →
      function_poly (polyfit xa ya n 5 ca).2 x 5 ≤ function_poly (polyfit xa ya n 5 ca).2 y 5)
    (hT : trapezoidal (polyfit xa ya n 5 ca).2 5 min_a max_a 100 = some total)
    (h0 : total ≠ 0) (h12 : t1 ≤ t2) :
    ∃ f1 f2 : ℚ,
      calculate_range_left_of_fraction xa ya min_a max_a n t1 ca = some f1
      ∧ calculate_range_left_of_fraction xa ya min_a max_a n t2 ca = some f2
      ∧ f1 ≤ f2 := by
  have htot : total
      = trapezoid100 (fun x => function_poly (polyfit xa ya n 5 ca).2 x 5) min_a max_a := by
    rw [trapezoidal_100_eq] at hT
    injection hT with hT
    exact hT.symm
  have hpos : 0 < total := by
    have : 0 ≤ total := by
      rw [htot]
      exact trapezoid100_nonneg _ min_a max_a max_a hdom le_rfl hnn
    exact lt_of_le_of_ne this (Ne.symm h0)
  have hin : ∀ t, min_a ≤ t → t ≤ max_a →
      calculate_range_left_of_fraction xa ya min_a max_a n t ca
      = some (trapezoid100 (fun x => function_poly (polyfit xa ya n 5 ca).2 x 5) min_a t
          / total) := by
    intro t h1 h2
    rw [left_of_unfold xa ya min_a max_a n t ca total _ (not_lt.mpr h1) (not_lt.mpr h2) hT
      (trapezoidal_100_eq _ 5 min_a t)]
    simp [fdiv, h0]
  have hlow : ∀ t, t < min_a →
      calculate_range_left_of_fraction xa ya min_a max_a n t ca = some 0 := by
    intro t h
    unfold calculate_range_left_of_fraction
    simp only []
    rw [if_pos h]
  have hhigh : ∀ t, max_a < t →
      calculate_range_left_of_fraction xa ya min_a max_a n t ca = some 1 := by
    intro t h
    have h1 : ¬ t < min_a := not_lt.mpr (le_trans hdom (le_of_lt h))
    unfold calculate_range_left_of_fraction
    simp only []
    rw [if_neg h1, if_pos h]
  have hfrac0 : ∀ t, min_a ≤ t → t ≤ max_a →
      0 ≤ trapezoid100 (fun x => function_poly (polyfit xa ya n 5 ca).2 x 5) min_a t / total :=
    fun t h1 h2 => div_nonneg (trapezoid100_nonneg _ min_a max_a t h1 h2 hnn) (le_of_lt hpos)
  have hfrac1 : ∀ t, min_a ≤ t → t ≤ max_a →
      trapezoid100 (fun x => function_poly (polyfit xa ya n 5 ca).2 x 5) min_a t / total
        ≤ 1 := by
    intro t h1 h2
    rw [div_le_one hpos, htot]
    exact trapezoid100_mono _ min_a max_a t max_a h1 h2 le_rfl hnn hmono
  by_cases a1 : t1 < min_a
  · by_cases a2 : t2 < min_a
    · exact ⟨0, 0, hlow t1 a1, hlow t2 a2, le_rfl⟩
    · by_cases b2 : max_a < t2
      · exact ⟨0, 1, hlow t1 a1, hhigh t2 b2, by norm_num⟩
      · exact ⟨0, _, hlow t1 a1, hin t2 (not_lt.mp a2) (not_lt.mp b2),
          hfrac0 t2 (not_lt.mp a2) (not_lt.mp b2)⟩
  · by_cases b1 : max_a < t1
    · exact ⟨1, 1, hhigh t1 b1, hhigh t2 (lt_of_lt_of_le b1 h12), le_rfl⟩
    · by_cases b2 : max_a < t2
      · exact ⟨_, 1, hin t1 (not_lt.mp a1) (not_lt.mp b1), hhigh t2 b2,
          hfrac1 t1 (not_lt.mp a1) (not_lt.mp b1)⟩
      · refine ⟨_, _, hin t1 (not_lt.mp a1) (not_lt.mp b1),
          hin t2 (le_trans (not_lt.mp a1) h12) (not_lt.mp b2), ?_⟩
        exact div_le_div_of_nonneg_right
          (trapezoid100_mono _ min_a max_a t1 t2 (not_lt.mp a1) h12 (not_lt.mp b2) hnn hmono)
          (le_of_lt hpos)

/-- The fitted polynomial of a histogram of uniform count over distinct bin centres. -/
theorem function_poly_uniform (xs : ℕ → ℚ) (v : ℚ) (n : ℕ) (ca : ℕ → ℚ) (x : ℚ) (hn : 5 < n)
    (hd : 6 ≤ (Finset.image xs (Finset.range n)).card) :
    function_poly (polyfit xs (fun _ => v) n 5 ca).2 x 5 = v := by
  rw [polyfit_uniform xs v n ca hn hd]
  apply function_poly_const _ x v 5 (by decide) (by simp)
  intro i h1 h2
  have h3 : i < 6 := by omega
  have h4 : i ≠ 0 := by omega
  simp [h3, h4]

theorem left_of_monotone_witness :
    ∃ f1 f2 : ℚ,
      calculate_range_left_of_fraction (fun s => (s : ℚ)) (fun _ => 10) 0 8 7 2 (fun _ => 0)
        = some f1
      ∧ calculate_range_left_of_fraction (fun s => (s : ℚ)) (fun _ => 10) 0 8 7 4 (fun _ => 0)
        = some f2
      ∧ f1 ≤ f2 := by
  have hd : 6 ≤ (Finset.image (fun s : ℕ => (s : ℚ)) (Finset.range 7)).card := by
    rw [card_image_natCast]; decide
  have hf : ∀ x : ℚ,
      function_poly (polyfit (fun s : ℕ => (s : ℚ)) (fun _ => 10) 7 5 (fun _ => 0)).2 x 5
        = 10 :=
    fun x => function_poly_uniform _ 10 7 _ x (by decide) hd
  exact left_of_monotone (fun s => (s : ℚ)) (fun _ => 10) 0 8 7 (fun _ => 0) 2 4 80
    (by norm_num) (fun x _ _ => by rw [hf x]; norm_num)
    (fun x y _ _ _ => by rw [hf x, hf y]) (by decide!) (by norm_num) (by norm_num)

/-- C21: when the two domains coincide (`min_a = min_b < max_a = max_b`), both fits succeed
and both total integrals are non-zero, the join estimator returns exactly `1`, whatever the
counts of the two histograms are: each partial integral is its total. -/
theorem join_same_domain_one (xa ya : ℕ → ℚ) (min_a max_a : ℚ) (xb yb : ℕ → ℚ)
    (min_b max_b : ℚ) (n : ℕ) (ca cb : ℕ → ℚ) (totalA totalB : ℚ)
    (hmin : min_a = min_b) (hmax : max_a = max_b) (hlt : min_a < max_a)
    (_ha : (polyfit xa ya n 5 ca).1 = 0) (_hb : (polyfit xb yb n 5 cb).1 = 0)
    (hA : trapezoidal (polyfit xa ya n 5 ca).2 5 min_a max_a 100 = some totalA)
    (hB : trapezoidal (polyfit xb yb n 5 cb).2 5 min_b max_b 100 = some totalB)
    (hA0 : totalA ≠ 0) (hB0 : totalB ≠ 0) :
    calculate_range_join_overlap_fraction xa ya min_a max_a xb yb min_b max_b n ca cb
    = some 1 := by
  subst hmin hmax
  have hstart : Max min_a min_a = min_a := by rw [Max_eq_max, max_self]
  have hend : Min max_a max_a = max_a := by rw [Min_eq_min, min_self]
  rw [join_unfold xa ya min_a max_a xb yb min_a max_a n ca cb totalA totalB hA hB,
    hstart, hend, if_pos hlt, hA, hB]
  simp only [Option.some_bind]
  rw [fdiv_self totalA hA0, fdiv_self totalB hB0]
  simp

theorem join_same_domain_one_witness :
    calculate_range_join_overlap_fraction (fun s => (s : ℚ)) (fun _ => 10) 0 8
      (fun s => (s : ℚ) + 1 / 2) (fun s => (s : ℚ) + 1) 0 8 7 (fun _ => 0) (fun _ => 0)
    = some 1 :=
  join_same_domain_one (fun s => (s : ℚ)) (fun _ => 10) 0 8
    (fun s => (s : ℚ) + 1 / 2) (fun s => (s : ℚ) + 1) 0 8 7 (fun _ => 0) (fun _ => 0) 80 36
    rfl rfl (by norm_num) (by decide!) (by decide!) (by decide!) (by decide!)
    (by norm_num) (by norm_num)

/-! ## The binary64 model: control flow of polyfit -/

namespace Binary64

theorem neZero_eq_false_iff (x : F64) : neZero x = false ↔ ∃ s, x = F64.zero s := by
  cases x with
  | nan => simp [neZero]
  | inf s => simp [neZero]
  | zero s => simp [neZero]
  | fin s m e => simp [neZero]

theorem eliminationStep_none_iff (order ii : ℕ) (A : ℕ → F64) :
    eliminationStep order ii A = none
    ↔ ∃ s, A ((ii * (2 * (order + 1))) + ii) = F64.zero s := by
  rw [← neZero_eq_false_iff]
  unfold eliminationStep
  by_cases h : neZero (A ((ii * (2 * (order + 1))) + ii)) = true
  · simp [h]
  · simp [h]

theorem invertLeft_def (order : ℕ) (A : ℕ → F64) :
    invertLeft order A = forUpToM (order + 1) (eliminationStep order) A := rfl

/-- The status of the binary64 `polyfit` past the two size guards, when a pivot is zero. -/
theorem polyfit_status_of_invertLeft_none (xs ys : ℕ → F64) (n order : ℕ)
    (coefficients : ℕ → F64) (hn : order < n) (ho : order ≤ maxOrder)
    (hA : invertLeft order (initMatrix (powerSums xs n order) order) = none) :
    (polyfit xs ys n order coefficients).1 = -1 := by
  unfold polyfit
  rw [if_neg (by omega), if_neg (by omega)]
  simp only [hA]

/-- The status of the binary64 `polyfit` past the two size guards, when no pivot is zero. -/
theorem polyfit_status_of_invertLeft_some (xs ys : ℕ → F64) (n order : ℕ)
    (coefficients : ℕ → F64) (hn : order < n) (ho : order ≤ maxOrder) (A : ℕ → F64)
    (hA : invertLeft order (initMatrix (powerSums xs n order) order) = some A) :
    (polyfit xs ys n order coefficients).1 = 0 := by
  unfold polyfit
  rw [if_neg (by omega), if_neg (by omega)]
  simp only [hA]


/-- C4, as stated, fails in its witness: seven samples whose abscissae all equal the double
`0.7`, order 5, do not make the binary64 `polyfit` fail: no rounded pivot is exactly zero and
the status is `0`. -/
theorem polyfit_singular_counterexample :
    (polyfit (fun _ => ofRat (7 / 10)) (fun _ => ofInt 10) 7 5 (fun _ => F64.zero false)).1
      = 0 := by
  decide!

/-- C4, amended: for every call of `polyfit` with `order ≤ 100` and `countOfElements > order`,
`polyfit` returns `-1` if and only if some diagonal pivot `A[ii][ii]`, as computed in double
precision and read at the start of an elimination pass, is exactly zero, and otherwise it
returns `0`. -/
theorem polyfit_singular_iff_rounded_pivot (xs ys : ℕ → F64) (n order : ℕ)
    (coefficients : ℕ → F64) (ho : order ≤ 100) (hn : order < n) :
    ((polyfit xs ys n order coefficients).1 = -1
      ↔ ∃ ii A, ii < order + 1
          ∧ forUpToM ii (eliminationStep order) (initMatrix (powerSums xs n order) order)
              = some A
          ∧ ∃ s, A ((ii * (2 * (order + 1))) + ii) = F64.zero s)
    ∧ ((polyfit xs ys n order coefficients).1 ≠ -1
        → (polyfit xs ys n order coefficients).1 = 0) := by
  cases hA : invertLeft order (initMatrix (powerSums xs n order) order) with
  | none =>
    have hs := polyfit_status_of_invertLeft_none xs ys n order coefficients hn ho hA
    rw [hs]
    refine ⟨⟨fun _ => ?_, fun _ => rfl⟩, fun h => absurd rfl h⟩
    rw [invertLeft_def, forUpToM_eq_none_iff] at hA
    obtain ⟨ii, A, hii, h1, h2⟩ := hA
    exact ⟨ii, A, hii, h1, (eliminationStep_none_iff order ii A).mp h2⟩
  | some B =>
    have hs := polyfit_status_of_invertLeft_some xs ys n order coefficients hn ho B hA
    rw [hs]
    refine ⟨⟨fun h => absurd h (by decide), ?_⟩, fun _ => rfl⟩
    rintro ⟨ii, A, hii, h1, h2⟩
    exfalso
    have hnone : invertLeft order (initMatrix (powerSums xs n order) order) = none := by
      rw [invertLeft_def, forUpToM_eq_none_iff]
      exact ⟨ii, A, hii, h1, (eliminationStep_none_iff order ii A).mpr h2⟩
    rw [hA] at hnone
    exact absurd hnone (by simp)

theorem polyfit_singular_iff_rounded_pivot_witness :
    (polyfit (fun _ => ofInt 2) (fun _ => ofInt 1) 6 5 (fun _ => F64.zero false)).1 = -1
    ∧ ∃ ii A, ii < 5 + 1
        ∧ forUpToM ii (eliminationStep 5)
            (initMatrix (powerSums (fun _ => ofInt 2) 6 5) 5) = some A
        ∧ ∃ s, A ((ii * (2 * (5 + 1))) + ii) = F64.zero s :=
  have h := polyfit_singular_iff_rounded_pivot (fun _ => ofInt 2) (fun _ => ofInt 1) 6 5
    (fun _ => F64.zero false) (by decide) (by decide)
  have hs : (polyfit (fun _ => ofInt 2) (fun _ => ofInt 1) 6 5 (fun _ => F64.zero false)).1
      = -1 := by decide!
  ⟨hs, h.1.mp hs⟩

end Binary64

/-! ## The binary64 model: the trapezoid rule on an interval of zero width -/

namespace Binary64

theorem ofInt_100 : ofInt 100 = F64.fin false 7036874417766400 (-46) := by decide!

theorem ofInt_2 : ofInt 2 = F64.fin false 4503599627370496 (-51) := by decide!

theorem loopCount_100 : loopCount (ofInt 100) = some 99 := by decide!

theorem sub_self_of_isFinite (a : F64) (ha : isFinite a = true) : sub a a = F64.zero false := by
  cases a with
  | nan => simp [isFinite] at ha
  | inf s => simp [isFinite] at ha
  | zero s => cases s <;> rfl
  | fin s m e =>
    cases s <;> simp [sub, neg, add, scaled]

theorem zero_div_100 : div (F64.zero false) (ofInt 100) = F64.zero false := by
  rw [ofInt_100]; rfl

theorem zero_div_2 : div (F64.zero false) (ofInt 2) = F64.zero false := by
  rw [ofInt_2]; rfl

/-- A product with a zero on the left is a zero when the other side is finite, a NaN
otherwise. -/
theorem zero_mul_cases (S : F64) :
    (isFinite S = true → ∃ s, mul (F64.zero false) S = F64.zero s)
    ∧ (isFinite S = false → mul (F64.zero false) S = F64.nan) := by
  cases S with
  | nan => simp [isFinite, mul]
  | inf s => simp [isFinite, mul]
  | zero s => simp [isFinite, mul]
  | fin s m e => simp [isFinite, mul]

/-- The binary64 `trapezoidal` with `n = 100` always returns; its value unfolded. -/
theorem trapezoidal_hundred (coefficients : ℕ → F64) (order : ℤ) (a b : F64) :
    trapezoidal coefficients order a b (ofInt 100)
    = some (mul (div (div (sub b a) (ofInt 100)) (ofInt 2))
        (trapezoidalSum coefficients order a b (div (sub b a) (ofInt 100)) 99)) := by
  unfold trapezoidal
  rw [loopCount_100]
  rfl

/-- C6, as stated, fails: with coefficients `1, …, 6`, order 5 and the finite point
`a = b = 2 ^ 400`, the polynomial value overflows, the sum is infinite and the binary64
`trapezoidal` returns `0 * inf`, a NaN, not `0`. -/
theorem trapezoidal_zero_width_counterexample :
    isFinite (ofRat (2 ^ 400)) = true
    ∧ trapezoidal (fun i => ofInt ((i : ℤ) + 1)) 5 (ofRat (2 ^ 400)) (ofRat (2 ^ 400))
        (ofInt 100) = some F64.nan := by
  decide!

/-- C6, amended: for every coefficient vector, every order and every finite point `a`,
`trapezoidal(coefficients, order, a, a, 100)` has `h = 0` and returns a zero whenever the sum
`s` accumulated at lines 164-170 is finite, and a NaN whenever that sum is an infinity or a
NaN. -/
theorem trapezoidal_zero_width_finite_sum (coefficients : ℕ → F64) (order : ℤ) (a : F64)
    (ha : isFinite a = true) :
    div (sub a a) (ofInt 100) = F64.zero false
    ∧ (isFinite (trapezoidalSum coefficients order a a (F64.zero false) 99) = true
        → ∃ s, trapezoidal coefficients order a a (ofInt 100) = some (F64.zero s))
    ∧ (isFinite (trapezoidalSum coefficients order a a (F64.zero false) 99) = false
        → trapezoidal coefficients order a a (ofInt 100) = some F64.nan) := by
  have hh : div (sub a a) (ofInt 100) = F64.zero false := by
    rw [sub_self_of_isFinite a ha, zero_div_100]
  refine ⟨hh, ?_, ?_⟩
  · intro hS
    obtain ⟨s, hs⟩ := (zero_mul_cases _).1 hS
    exact ⟨s, by rw [trapezoidal_hundred, hh, zero_div_2, hs]⟩
  · intro hS
    rw [trapezoidal_hundred, hh, zero_div_2, (zero_mul_cases _).2 hS]

theorem trapezoidal_zero_width_finite_sum_witness :
    isFinite (ofInt 3) = true
    ∧ trapezoidal (fun i => ofInt ((i : ℤ) + 1)) 5 (ofInt 3) (ofInt 3) (ofInt 100)
        = some (F64.zero false) :=
  have ha : isFinite (ofInt 3) = true := by decide!
  have hS : isFinite (trapezoidalSum (fun i => ofInt ((i : ℤ) + 1)) 5 (ofInt 3) (ofInt 3)
      (F64.zero false) 99) = true := by decide!
  have h := (trapezoidal_zero_width_finite_sum (fun i => ofInt ((i : ℤ) + 1)) 5 (ofInt 3) ha).2.1
    hS
  ⟨ha, by
    obtain ⟨s, hs⟩ := h
    rw [hs]
    have : trapezoidal (fun i => ofInt ((i : ℤ) + 1)) 5 (ofInt 3) (ofInt 3) (ofInt 100)
        ≠ some (F64.zero true) := by decide!
    cases s with
    | false => rfl
    | true => exact absurd hs this⟩

end Binary64

/-! ## The binary64 model: the clamped join selectivity -/

namespace Binary64

/-- The binary64 join estimator always returns: its four integrations have `n = 100`. -/
theorem join_returns (xa ya : ℕ → F64) (min_a max_a : F64) (xb yb : ℕ → F64)
    (min_b max_b : F64) (countOfElements : ℕ) (coefficients_a coefficients_b : ℕ → F64) :
    ∃ r, calculate_range_join_overlap_fraction xa ya min_a max_a xb yb min_b max_b
      countOfElements coefficients_a coefficients_b = some r := by
  unfold calculate_range_join_overlap_fraction
  simp only [trapezoidal_hundred, Option.some_bind]
  split
  · exact ⟨_, rfl⟩
  · exact ⟨_, rfl⟩

/-- The scale factor in `toRat` is the power `2 ^ e`. -/
theorem scale_eq_zpow (e : ℤ) :
    (if 0 ≤ e then ((2 ^ e.toNat : ℕ) : ℚ) else 1 / ((2 ^ (-e).toNat : ℕ) : ℚ))
    = (2 : ℚ) ^ e := by
  split
  · next he =>
    push_cast
    rw [← zpow_natCast, Int.toNat_of_nonneg he]
  · next he =>
    push_cast
    rw [one_div, ← zpow_natCast, Int.toNat_of_nonneg (by omega), zpow_neg, inv_inv]

theorem pow_toNat_eq_zpow (k : ℤ) (hk : 0 ≤ k) : (2 : ℚ) ^ k.toNat = (2 : ℚ) ^ k := by
  rw [← zpow_natCast, Int.toNat_of_nonneg hk]

/-- A positive finite value that is not above `1.0` in the comparison of `lt` has a rational
value in `[0, 1]`. -/
theorem toRat_le_one_of_not_lt (m : ℕ) (e : ℤ) (h : lt one (F64.fin false m e) = false) :
    ∃ q, toRat (F64.fin false m e) = some q ∧ 0 ≤ q ∧ q ≤ 1 := by
  refine ⟨(m : ℚ) * (2 : ℚ) ^ e, ?_, ?_, ?_⟩
  · simp only [toRat, Bool.false_eq_true, if_false, one_mul, scale_eq_zpow]
  · positivity
  · simp only [lt, one, scaled, Bool.false_eq_true, if_false, decide_eq_false_iff_not,
      not_lt] at h
    have hq : ((m * 2 ^ (e - min (-52) e).toNat : ℕ) : ℚ)
        ≤ ((2 ^ 52 * 2 ^ (-52 - min (-52) e).toNat : ℕ) : ℚ) := by exact_mod_cast h
    push_cast at hq
    rw [pow_toNat_eq_zpow _ (by omega), pow_toNat_eq_zpow _ (by omega)] at hq
    have h0 : (0 : ℚ) < (2 : ℚ) ^ (min (-52) e) := by positivity
    have h1 : (m : ℚ) * (2 : ℚ) ^ e
        = (m : ℚ) * (2 : ℚ) ^ (e - min (-52) e) * (2 : ℚ) ^ (min (-52) e) := by
      rw [mul_assoc, ← zpow_add₀ (by norm_num : (2 : ℚ) ≠ 0), sub_add_cancel]
    have h2 : (2 : ℚ) ^ 52 * (2 : ℚ) ^ (-52 - min (-52) e) * (2 : ℚ) ^ (min (-52) e) = 1 := by
      rw [mul_assoc, ← zpow_add₀ (by norm_num : (2 : ℚ) ≠ 0), sub_add_cancel,
        ← zpow_natCast, ← zpow_add₀ (by norm_num : (2 : ℚ) ≠ 0)]
      norm_num
    rw [h1, ← h2]
    exact mul_le_mul_of_nonneg_right hq h0.le

theorem toRat_one : toRat one = some 1 := by decide!

/-- The macro `CLAMP_PROBABILITY` leaves a NaN unchanged. -/
theorem CLAMP_PROBABILITY_nan : CLAMP_PROBABILITY F64.nan = F64.nan := rfl

/-- The macro `CLAMP_PROBABILITY` sends everything but a NaN into `[0, 1]`. -/
theorem CLAMP_PROBABILITY_bounds (r : F64) (hr : r ≠ F64.nan) :
    ∃ q, toRat (CLAMP_PROBABILITY r) = some q ∧ 0 ≤ q ∧ q ≤ 1 := by
  cases r with
  | nan => exact absurd rfl hr
  | inf s =>
    cases s
    · exact ⟨1, by decide!, by norm_num, by norm_num⟩
    · exact ⟨0, by decide!, by norm_num, by norm_num⟩
  | zero s =>
    cases s
    · exact ⟨0, by decide!, by norm_num, by norm_num⟩
    · exact ⟨0, by decide!, by norm_num, by norm_num⟩
  | fin s m e =>
    cases s
    · by_cases h : lt one (F64.fin false m e) = true
      · refine ⟨1, ?_, by norm_num, by norm_num⟩
        have hc : CLAMP_PROBABILITY (F64.fin false m e) = one := by
          unfold CLAMP_PROBABILITY
          rw [if_neg (by simp [lt]), if_pos h]
        rw [hc, toRat_one]
      · have hc : CLAMP_PROBABILITY (F64.fin false m e) = F64.fin false m e := by
          unfold CLAMP_PROBABILITY
          rw [if_neg (by simp [lt]), if_neg h]
        rw [hc]
        exact toRat_le_one_of_not_lt m e (eq_false_of_ne_true h)
    · refine ⟨0, ?_, by norm_num, by norm_num⟩
      have hc : CLAMP_PROBABILITY (F64.fin true m e) = F64.zero false := by
        unfold CLAMP_PROBABILITY
        rw [if_pos (by simp [lt])]
      rw [hc]
      rfl

/-- C17, as stated, fails: two all-zero histograms of seven bins over `[0, 8]` make both
fits succeed with zero polynomials, every integral is `0`, the join estimator returns
`0 / 0`, a NaN, and the clamped selectivity is still a NaN, outside `[0, 1]`. -/
theorem rangeoverlapsjoinsel_clamped_counterexample :
    rangeoverlapsjoinsel (fun i => ofInt i) (fun _ => F64.zero false) (F64.zero false)
      (ofInt 8) (fun i => ofInt i) (fun _ => F64.zero false) (F64.zero false) (ofInt 8) 7
      (fun _ => F64.zero false) (fun _ => F64.zero false) = some F64.nan := by
  decide!

/-- C17, amended: for every histogram input and prior buffer content, the join estimator
returns a double `r` and `rangeoverlapsjoinsel` returns `CLAMP_PROBABILITY(r)`; that value
lies in `[0, 1]` whenever `r` is not a NaN (an infinity is clamped to `1` or `0`), and is a
NaN whenever `r` is a NaN. -/
theorem rangeoverlapsjoinsel_clamped_unless_nan (histogram1x histogram1y : ℕ → F64)
    (lowerDiff1 histogramWidth1 : F64) (histogram2x histogram2y : ℕ → F64)
    (lowerDiff2 histogramWidth2 : F64) (numberOfBins1 : ℕ)
    (coefficients_a coefficients_b : ℕ → F64) :
    ∃ r, calculate_range_join_overlap_fraction histogram1x histogram1y lowerDiff1
          (add lowerDiff1 histogramWidth1) histogram2x histogram2y lowerDiff2
          (add lowerDiff2 histogramWidth2) numberOfBins1 coefficients_a coefficients_b = some r
      ∧ rangeoverlapsjoinsel histogram1x histogram1y lowerDiff1 histogramWidth1 histogram2x
          histogram2y lowerDiff2 histogramWidth2 numberOfBins1 coefficients_a coefficients_b
          = some (CLAMP_PROBABILITY r)
      ∧ (r ≠ F64.nan → ∃ q, toRat (CLAMP_PROBABILITY r) = some q ∧ 0 ≤ q ∧ q ≤ 1)
      ∧ (r = F64.nan → CLAMP_PROBABILITY r = F64.nan) := by
  obtain ⟨r, hr⟩ := join_returns histogram1x histogram1y lowerDiff1
    (add lowerDiff1 histogramWidth1) histogram2x histogram2y lowerDiff2
    (add lowerDiff2 histogramWidth2) numberOfBins1 coefficients_a coefficients_b
  refine ⟨r, hr, ?_, CLAMP_PROBABILITY_bounds r, ?_⟩
  · unfold rangeoverlapsjoinsel
    rw [hr]
    rfl
  · intro h
    rw [h]
    rfl


theorem rangeoverlapsjoinsel_clamped_unless_nan_witness :
    ∃ r, calculate_range_join_overlap_fraction (fun i => ofInt i) (fun _ => ofInt 10)
          (F64.zero false) (add (F64.zero false) (ofInt 8)) (fun i => ofInt i)
          (fun _ => ofInt 10) (F64.zero false) (add (F64.zero false) (ofInt 8)) 3
          (fun i => if i = 0 then one else F64.zero false)
          (fun i => if i = 0 then one else F64.zero false) = some r
      ∧ rangeoverlapsjoinsel (fun i => ofInt i) (fun _ => ofInt 10) (F64.zero false) (ofInt 8)
          (fun i => ofInt i) (fun _ => ofInt 10) (F64.zero false) (ofInt 8) 3
          (fun i => if i = 0 then one else F64.zero false)
          (fun i => if i = 0 then one else F64.zero false) = some (CLAMP_PROBABILITY r)
      ∧ r = one
      ∧ ∃ q, toRat (CLAMP_PROBABILITY r) = some q ∧ 0 ≤ q ∧ q ≤ 1 := by
  obtain ⟨r, h1, h2, h3, _⟩ := rangeoverlapsjoinsel_clamped_unless_nan (fun i => ofInt i)
    (fun _ => ofInt 10) (F64.zero false) (ofInt 8) (fun i => ofInt i) (fun _ => ofInt 10)
    (F64.zero false) (ofInt 8) 3 (fun i => if i = 0 then one else F64.zero false)
    (fun i => if i = 0 then one else F64.zero false)
  have hv : calculate_range_join_overlap_fraction (fun i => ofInt i) (fun _ => ofInt 10)
      (F64.zero false) (add (F64.zero false) (ofInt 8)) (fun i => ofInt i)
      (fun _ => ofInt 10) (F64.zero false) (add (F64.zero false) (ofInt 8)) 3
      (fun i => if i = 0 then one else F64.zero false)
      (fun i => if i = 0 then one else F64.zero false) = some one := by decide!
  have hr : r = one := by
    rw [h1] at hv
    exact Option.some.inj hv
  have hne : r ≠ F64.nan := by
    rw [hr]
    exact fun h => F64.noConfusion h
  exact ⟨r, h1, h2, hr, h3 hne⟩

end Binary64

end RangeHelFuncs
